import Mathlib

namespace TopoOrder

/-!
Verification of `topo_order_commits.py`: a shallow embedding in Lean 4 of the
commit-graph builder, the topological sorter, the segmented renderer, the
object reader and the repository-discovery walk, together with theorems
settling the specification claims about them.

Python dictionaries are embedded as association lists (`List (String × β)`)
whose key order models Python (3.7+) insertion order; Python sets are embedded
as duplicate-free lists where insertion appends an element only when absent.
Standard output is embedded as the `String` of all emitted characters.
-/

/-- Association-list lookup: the value of the first pair whose key matches,
embedding a Python dictionary access that is known to succeed (or `d.get`). -/
def alookup {β : Type} : List (String × β) → String → Option β
  | [], _ => none
  | e :: l, h => if e.1 = h then some e.2 else alookup l h

/-- The `CommitNode` class: a commit hash with its parent and child hash sets.
The Python `set` fields are embedded as duplicate-free lists. -/
structure CommitNode where
  commit_hash : String
  parents : List String
  children : List String
deriving DecidableEq, Repr

/-- `CommitNode.add_parent`: Python `set.add`, embedded as append-if-absent. -/
def CommitNode.add_parent (n : CommitNode) (p : String) : CommitNode :=
  if p ∈ n.parents then n else { n with parents := n.parents ++ [p] }

/-- `CommitNode.add_child`: Python `set.add`, embedded as append-if-absent. -/
def CommitNode.add_child (n : CommitNode) (c : String) : CommitNode :=
  if c ∈ n.children then n else { n with children := n.children ++ [c] }

/-- The commit graph: the Python `dict[str, CommitNode]`, embedded as an
association list in insertion order. -/
abbrev CommitGraph := List (String × CommitNode)

/-- The key set of the commit graph (`commit_graph.keys()`), in order. -/
def keys (g : CommitGraph) : List String := g.map Prod.fst

/-- `commit_graph[h]` as an `Option`. -/
def lookupNode (g : CommitGraph) (h : String) : Option CommitNode := alookup g h

/-!
## Object Reader (`decompress_git_object`)

The reader opens `.git/objects/hh/rest`, reads the raw bytes, `zlib`
decompresses them, decodes, and splits on newlines.  The `try` block catches
exactly `FileNotFoundError` and converts it to the not-found signal `None`.
The on-disk store is embedded as a map from hash to the outcome of opening
and reading that object file (the two-character directory split is pure path
plumbing and is absorbed into the map key).
-/

/-- Python `str.split('\n')` on the character list: split at every newline,
keeping empty pieces (so the result always has one more piece than there are
newlines). -/
def splitNlChars : List Char → List (List Char)
  | [] => [[]]
  | c :: cs =>
    if c = '\n' then [] :: splitNlChars cs
    else
      match splitNlChars cs with
      | [] => [[c]]
      | l :: ls => (c :: l) :: ls

/-- Python `str.split('\n')`: `contents.split('\n')` in the reader, and the
line decomposition of rendered output. -/
def split_on_newlines (s : String) : List String :=
  (splitNlChars s.data).map (fun l => String.mk l)

/-- Outcome of `zlib.decompress(data).decode()` on the raw bytes of an object
file: either clean text, or a `zlib.error` with a message. -/
inductive ZlibData where
  | wellFormed (text : String)
  | corrupt (msg : String)
deriving DecidableEq, Repr

/-- Outcome of `open(file_path, "rb")` followed by `f.read()` for an object
file: the file is absent (`FileNotFoundError`), some other `OSError` is
raised (e.g. a permission error), or raw bytes are obtained. -/
inductive RawRead where
  | notFound
  | fsError (msg : String)
  | ok (data : ZlibData)
deriving DecidableEq, Repr

/-- A Python exception escaping the reader. -/
inductive PyError where
  | zlibError (msg : String)
  | osError (msg : String)
deriving DecidableEq, Repr

/-- The object store as seen by `open`: what reading the object file of each
hash yields.  A hash absent from the list has no object file. -/
def rawReadOf (fs : List (String × RawRead)) (commit_hash : String) : RawRead :=
  (alookup fs commit_hash).getD RawRead.notFound

/-- `decompress_git_object`: returns the decompressed contents split on
newlines, or `none` for a missing file; the `except FileNotFoundError`
clause catches only that exception, so a `zlib.error` or any other
`OSError` raised inside the `try` block escapes as `Except.error`. -/
def decompress_git_object (fs : List (String × RawRead)) (commit_hash : String) :
    Except PyError (Option (List String)) :=
  match rawReadOf fs commit_hash with
  | RawRead.notFound => Except.ok none
  | RawRead.fsError m => Except.error (PyError.osError m)
  | RawRead.ok (ZlibData.corrupt m) => Except.error (PyError.zlibError m)
  | RawRead.ok (ZlibData.wellFormed s) => Except.ok (some (split_on_newlines s))

/-!
## Repository discovery (`get_git_directory`)

Paths are embedded as lists of components relative to the filesystem root:
`/` is `[]` and `/a/b` is `["a", "b"]`, so `os.path.dirname` is `dropLast`
and the loop guard `current_dir != '/'` is `≠ []`.  The filesystem is
abstracted to the `os.path.exists` oracle.  `sys.exit(1)` after the error
write is embedded as `Except.error` carrying the message written to stderr.
-/

/-- `get_git_directory`: walk from the working directory upward, returning
the first `.git` path found; the loop body runs only while the current
directory differs from the root `/`. -/
def get_git_directory (pathExists : List String → Bool) : List String → Except String (List String)
  | [] => Except.error "Not inside a Git repository"
  | c :: rest =>
    if pathExists ((c :: rest) ++ [".git"]) then Except.ok ((c :: rest) ++ [".git"])
    else get_git_directory pathExists (c :: rest).dropLast
termination_by l => l.length
decreasing_by simp only [List.dropLast_cons₂, List.length_cons, List.dropLast, List.length_dropLast]; omega

/-!
## Commit graph builder (`build_commit_graph`)

The builder traverses the object store from the branch heads.  The loop pops
from the end of the Python worklist (`list.pop()`), so the embedding keeps
the worklist reversed: the head of the Lean list is the next hash popped and
`append` is cons.  The store is a map from hash to decompressed object text,
i.e. the Object Reader restricted to stores whose present objects all
decompress cleanly (a corrupt object would raise out of the builder, see the
reader theorems).  `re.findall(r'parent ([0-9a-f]+)', contents_str)` is
embedded as a left-to-right scan collecting each maximal nonempty hex run
that follows an occurrence of `"parent "`, resuming after the match.
-/

/-- A character of the regex class `[0-9a-f]`. -/
def isHexChar (c : Char) : Bool :=
  ('0' ≤ c && c ≤ '9') || ('a' ≤ c && c ≤ 'f')

/-- The maximal leading `[0-9a-f]*` run and the remaining characters. -/
def takeHexRun : List Char → List Char × List Char
  | [] => ([], [])
  | c :: cs =>
    if isHexChar c then
      let r := takeHexRun cs
      (c :: r.1, r.2)
    else ([], c :: cs)

/-- The literal characters of `"parent "`. -/
def parentKey : List Char := ['p', 'a', 'r', 'e', 'n', 't', ' ']

/-- Left-to-right non-overlapping scan for `parent ([0-9a-f]+)`: at each
position, if the text starts with `"parent "` followed by at least one hex
character, capture the maximal hex run and resume after it; otherwise
advance one character.  The extra `Nat` argument is only a structural bound
on the recursion depth: every recursive call is on a strictly shorter
character list, so any fuel at least the list length (as supplied by
`find_parent_hashes`) never reaches the `0` case. -/
def findParentsChars : Nat → List Char → List String
  | 0, _ => []
  | _, [] => []
  | fuel + 1, c :: cs =>
    if (c :: cs).take 7 = parentKey then
      match takeHexRun ((c :: cs).drop 7) with
      | ([], _) => findParentsChars fuel cs
      | (d :: hex, rest) => String.mk (d :: hex) :: findParentsChars fuel rest
    else findParentsChars fuel cs

/-- `re.findall(r'parent ([0-9a-f]+)', contents_str)`. -/
def find_parent_hashes (contents_str : String) : List String :=
  findParentsChars contents_str.data.length contents_str.data

/-- The builder's store: hash to decompressed object text.  Reading an
object returns its text split on newlines, or `none` when absent — the
Object Reader's behaviour on a store of well-formed objects. -/
def read_object (σ : List (String × String)) (h : String) : Option (List String) :=
  (alookup σ h).map split_on_newlines

/-- `if curr_hash not in commit_graph: commit_graph[curr_hash] =
CommitNode(curr_hash)` — dictionary insertion appends at the end. -/
def ensure_node (g : CommitGraph) (h : String) : CommitGraph :=
  if (lookupNode g h).isSome then g else g ++ [(h, CommitNode.mk h [] [])]

/-- Mutation of the node object stored under a key (Python objects are
shared, so mutating `commit_graph[h]` updates the graph entry). -/
def update_node (g : CommitGraph) (h : String) (f : CommitNode → CommitNode) : CommitGraph :=
  g.map (fun e => if e.1 = h then (e.1, f e.2) else e)

/-- The per-parent graph work: create the parent's node if missing, then
`commit_graph[parent_hash].add_child(curr_hash)` and
`curr_node.add_parent(parent_hash)`. -/
def add_edge (g : CommitGraph) (curr parent : String) : CommitGraph :=
  update_node
    (update_node (ensure_node g parent) parent (fun n => n.add_child curr))
    curr (fun n => n.add_parent parent)

/-- One iteration of `for parent_hash in parent_hashes`: push the parent on
the worklist when unvisited, and record the bidirectional edge.  The state
is (worklist, graph). -/
def process_parent (curr : String) (visited : List String)
    (st : List String × CommitGraph) (p : String) : List String × CommitGraph :=
  ((if p ∈ visited then st.1 else p :: st.1), add_edge st.2 curr p)

/-- Fuel-bounded builder worklist loop; `none` only on fuel exhaustion with
a nonempty worklist, which `build_commit_graph`'s fuel provably avoids. -/
def buildLoop (σ : List (String × String)) :
    Nat → List String → List String → CommitGraph → Option CommitGraph
  | _, [], _, g => some g
  | 0, _ :: _, _, _ => none
  | fuel + 1, curr :: rest, visited, g =>
    if curr ∈ visited then buildLoop σ fuel rest visited g
    else
      let g1 := ensure_node g curr
      match read_object σ curr with
      | none => buildLoop σ fuel rest (curr :: visited) g1
      | some contents =>
        let ps := find_parent_hashes (String.intercalate "\n" contents)
        let st := ps.foldl (process_parent curr (curr :: visited)) (rest, g1)
        buildLoop σ fuel st.1 (curr :: visited) st.2

/-- Number of parent references the builder extracts from the stored text
of one object. -/
def parentCountOf (c : String) : Nat :=
  (find_parent_hashes (String.intercalate "\n" (split_on_newlines c))).length

/-- Upper bound on the work left in the store: for every stored object not
yet visited, one visit plus one push per extracted parent. -/
def SBound (σ : List (String × String)) (visited : List String) : Nat :=
  ((σ.filter (fun e => !(decide (e.1 ∈ visited)))).map
    (fun e => parentCountOf e.2 + 1)).sum

/-- Fuel sufficient for the whole traversal: one pop per seed plus the
store-wide work bound. -/
def build_fuel (σ : List (String × String)) (seeds : List String) : Nat :=
  seeds.length + SBound σ [] + 1

/-- `build_commit_graph`: traverse from the branch heads (`branches_list`
pairs of branch name and head hash, whose heads seed the worklist) and
return the commit graph. -/
def build_commit_graph (σ : List (String × String))
    (branches_list : List (String × String)) : Option CommitGraph :=
  let seeds := (branches_list.map Prod.snd).reverse
  buildLoop σ (build_fuel σ seeds) seeds [] []

/-- The build invariant: the bidirectional-edge property of §3 of the spec,
together with closure of every recorded parent and child reference into the
graph's key set (every referenced hash has a node). -/
def InvB (g : CommitGraph) : Prop :=
  (∀ a b na nb, lookupNode g a = some na → lookupNode g b = some nb →
    (b ∈ na.parents ↔ a ∈ nb.children)) ∧
  (∀ a na, lookupNode g a = some na →
    (∀ x ∈ na.parents, (lookupNode g x).isSome) ∧
    (∀ x ∈ na.children, (lookupNode g x).isSome))

/-!
## Topological sorter (`topo_sort`)

Kahn's algorithm on the child-to-parent edges.  The `indegree` dictionary is
embedded as an association list whose keys are the graph keys in order; the
`deque` is a list whose head is the front (`popleft` takes the head,
`append` adds at the tail).  The Python loop always terminates; the
embedding runs it on a fuel argument that `topo_sort` instantiates with a
provably sufficient amount, so the fuel-exhaustion branch is dead code.
-/

/-- `indegree[p] += 1` (a missing key would raise `KeyError` in Python; the
callers only bump keys present in the dictionary). -/
def bumpIndeg (ind : List (String × Int)) (p : String) : List (String × Int) :=
  ind.map (fun e => if e.1 = p then (e.1, e.2 + 1) else e)

/-- `indegree[p] -= 1` (same `KeyError` caveat as `bumpIndeg`). -/
def decIndeg (ind : List (String × Int)) (p : String) : List (String × Int) :=
  ind.map (fun e => if e.1 = p then (e.1, e.2 - 1) else e)

/-- The initial indegree dictionary: every key of the graph starts at `0`,
then every parent reference of every node bumps its parent's count. -/
def initIndeg (g : CommitGraph) : List (String × Int) :=
  g.foldl (fun ind e => e.2.parents.foldl bumpIndeg ind)
    (g.map (fun e => (e.1, (0 : Int))))

/-- The seed of the ready queue: the keys whose indegree is zero, in
dictionary order. -/
def zeroSeeds (ind : List (String × Int)) : List String :=
  (ind.filter (fun e => e.2 = 0)).map Prod.fst

/-- The inner loop over the popped node's parents: decrement each parent's
indegree and, right after a decrement that reaches zero, append that parent
to the pending queue additions (Python appends it to the deque there). -/
def stepParents (ind : List (String × Int)) (ps : List String) :
    List (String × Int) × List String :=
  ps.foldl
    (fun acc p =>
      let ind2 := decIndeg acc.1 p
      if alookup ind2 p = some 0 then (ind2, acc.2 ++ [p]) else (ind2, acc.2))
    (ind, [])

/-- Fuel-bounded Kahn worklist loop: pop the queue head, append it to the
result, process its parents.  `topo_sort` supplies fuel exceeding the loop
measure, so the `0` case is never taken there. -/
def kahnLoop (g : CommitGraph) :
    Nat → List (String × Int) → List String → List String → List String
  | _, _, [], result => result
  | 0, _, _ :: _, result => result
  | fuel + 1, ind, h :: q, result =>
    let ps := ((lookupNode g h).getD (CommitNode.mk h [] [])).parents
    let pr := stepParents ind ps
    kahnLoop g fuel pr.1 (q ++ pr.2) (result ++ [h])

/-- The loop measure: total positive indegree plus queue length; it strictly
decreases at every loop iteration. -/
def sumPos (ind : List (String × Int)) : Nat := (ind.map (fun e => e.2.toNat)).sum

/-- `topo_sort` together with what it prints: the first component is stdout
(the `"Cycle"` marker line when the result does not cover the graph), the
second the returned ordering (empty in the cycle case). -/
def topoSortRun (g : CommitGraph) : List String × List String :=
  let ind := initIndeg g
  let q := zeroSeeds ind
  let result := kahnLoop g (sumPos ind + q.length + 1) ind q []
  if result.length ≠ g.length then (["Cycle"], []) else ([], result)

/-- The list returned by `topo_sort`. -/
def topo_sort (g : CommitGraph) : List String := (topoSortRun g).2

/-- The lines `topo_sort` prints (the cycle marker, or nothing). -/
def topoSortOut (g : CommitGraph) : List String := (topoSortRun g).1

/-- The edge relation of the commit graph: `c → p` when the node stored
under `c` lists `p` among its parents (edges point from commit to
ancestor). -/
def Edge (g : CommitGraph) (c p : String) : Prop :=
  ∃ n, lookupNode g c = some n ∧ p ∈ n.parents

/-- Boolean form of `Edge`. -/
def edgeB (g : CommitGraph) (c p : String) : Bool :=
  match lookupNode g c with
  | some n => decide (p ∈ n.parents)
  | none => false

/-- A graph shaped like the builder's output, as assumed by `topo_sort`:
keys are unique (a Python dictionary), each parent set is duplicate-free (a
Python set) and every recorded parent has a node (otherwise the Python
`indegree[parent_hash] += 1` would raise `KeyError`). -/
def WellFormedGraph (g : CommitGraph) : Prop :=
  (keys g).Nodup ∧ ∀ e ∈ g, e.2.parents ⊆ keys g ∧ e.2.parents.Nodup

/-- Acyclicity: no hash reaches itself through a nonempty chain of edges. -/
def Acyclic (g : CommitGraph) : Prop :=
  ∀ h, ¬ Relation.TransGen (Edge g) h h

/-- The number of keys `c` that have an edge to `p` and are not yet listed
in `res`: the meaning of the running `indegree[p]` when `res` holds the
already-emitted hashes. -/
def remCount (g : CommitGraph) (res : List String) (p : String) : Nat :=
  ((keys g).filter (fun c => edgeB g c p && !(decide (c ∈ res)))).length

/-- The number of graph entries whose parent set contains `x` (each entry's
parent set is duplicate-free, so this is the number of children of `x`). -/
def numChildren (g : CommitGraph) (x : String) : Nat :=
  (g.map (fun e => if x ∈ e.2.parents then 1 else 0)).sum

/-!
## Segmented renderer (`ordered_print`)

This is the `ordered_print` variant that the driver `topo_order_commits`
actually calls.  Standard output is embedded as a `String`; Python
`print(x, end="")` appends `x`, `print(x)` appends `x` then a newline and
`print()` appends a newline.  Iteration over the Python sets
`curr_node.children` and `curr_node.parents` follows the list order of the
embedding (any fixed order realises the unordered Python set iteration).
-/

/-- Insert a string into an ascending sorted list, keeping it sorted. -/
def insertSorted (x : String) : List String → List String
  | [] => [x]
  | y :: l => if x ≤ y then x :: y :: l else y :: insertSorted x l

/-- Python `sorted` on a list of strings (ascending lexicographic). -/
def sortedStrings (l : List String) : List String := l.foldr insertSorted []

/-- Output of the branch-name suffix for one commit line: a space followed by
the sorted branch names joined by spaces, when the hash heads any branch. -/
def branchesOut (head_to_branches : List (String × List String)) (commit : String) : String :=
  match alookup head_to_branches commit with
  | none => ""
  | some bs => " " ++ String.intercalate " " (sortedStrings bs)

/-- Output of the segment opener: `print("=", end="")` then, for each child
of the resumed node, `print(child)` (each child hash on its own line). -/
def openerOut (children : List String) : String :=
  "=" ++ String.join (children.map (fun c => c ++ "\n"))

/-- Output of the segment terminator: each parent printed with `end=" "`,
then `print()`, then `print("=")`, then the blank separator `print()`. -/
def terminatorOut (parents : List String) : String :=
  String.join (parents.map (fun p => p ++ " ")) ++ "\n" ++ "=\n" ++ "\n"

/-- The loop body of `ordered_print` over the remaining suffix of the
topological order, carrying the `printed_commits` set and the `jump` flag.
A commit already printed is skipped; when `i + 1 == len(topo_ordered_commits)`
the function returns right after printing the commit line. -/
def ordered_print_loop (commit_nodes : CommitGraph)
    (head_to_branches : List (String × List String)) :
    List String → List String → Bool → String
  | [], _, _ => ""
  | commit :: rest, printed_commits, jump =>
    if commit ∈ printed_commits then
      ordered_print_loop commit_nodes head_to_branches rest printed_commits jump
    else
      let curr_node := (lookupNode commit_nodes commit).getD (CommitNode.mk commit [] [])
      let opener := if jump then openerOut curr_node.children else ""
      let line := commit ++ branchesOut head_to_branches commit ++ "\n"
      match rest with
      | [] => opener ++ line
      | next :: _ =>
        if next ∈ curr_node.parents then
          opener ++ line ++
            ordered_print_loop commit_nodes head_to_branches rest (commit :: printed_commits) false
        else
          opener ++ line ++ terminatorOut curr_node.parents ++
            ordered_print_loop commit_nodes head_to_branches rest (commit :: printed_commits) true

/-- `ordered_print`: render the topological order with sticky segment
markers and branch annotations; the result is everything written to stdout. -/
def ordered_print (commit_nodes : CommitGraph) (topo_ordered_commits : List String)
    (head_to_branches : List (String × List String)) : String :=
  ordered_print_loop commit_nodes head_to_branches topo_ordered_commits [] false

/-!
### The Kahn loop invariant
-/

/-- The invariant of the Kahn worklist loop: the indegree dictionary keeps
the graph's keys with each value equal to the number of not-yet-emitted
children of that key, the emitted list and queue are disjoint duplicate-free
key lists, a key has been emitted or queued exactly when all its children
are emitted, and every emitted node follows all of its children. -/
def KInv (g : CommitGraph) (ind : List (String × Int)) (q res : List String) : Prop :=
  ind.map Prod.fst = keys g ∧
  (∀ p ∈ keys g, alookup ind p = some ((remCount g res p : Int))) ∧
  (res ++ q).Nodup ∧
  (∀ x ∈ res, x ∈ keys g) ∧
  (∀ x ∈ q, x ∈ keys g) ∧
  (∀ x ∈ keys g, (x ∈ res ∨ x ∈ q) ↔ remCount g res x = 0) ∧
  (∀ c p, edgeB g c p = true → p ∈ res →
    c ∈ res ∧ res.indexOf c < res.indexOf p)

theorem takeHexRun_length (l : List Char) :
    (takeHexRun l).1.length + (takeHexRun l).2.length = l.length := by
  induction l with
  | nil => simp [takeHexRun]
  | cons c cs ih =>
    by_cases h : isHexChar c = true
    · simp [takeHexRun, h]
      omega
    · simp [takeHexRun, h]

/-- Fidelity bridge: on a store whose objects are all well formed, the full
Object Reader raises nothing and agrees with `read_object`. -/
theorem decompress_git_object_agrees_read_object (σ : List (String × String)) (h : String) :
    decompress_git_object
        (σ.map (fun e => (e.1, RawRead.ok (ZlibData.wellFormed e.2)))) h =
      Except.ok (read_object σ h) := by
  induction σ with
  | nil => rfl
  | cons e l ih =>
    by_cases he : e.1 = h
    · simp [decompress_git_object, rawReadOf, read_object, alookup, he]
    · simp only [decompress_git_object, rawReadOf, read_object, alookup, List.map_cons,
        if_neg he] at ih ⊢
      exact ih

/-!
### Termination of the builder loop

The measure `worklist length + SBound σ visited` strictly decreases at every
iteration, and the fuel `build_fuel` exceeds its initial value.
-/

theorem sum_map_filter_le {α : Type} (f : α → Nat) (p q : α → Bool) (l : List α)
    (himp : ∀ e ∈ l, q e = true → p e = true) :
    ((l.filter q).map f).sum ≤ ((l.filter p).map f).sum := by
  induction l with
  | nil => simp
  | cons e l ih =>
    have ih2 := ih (fun x hx hq => himp x (List.mem_cons_of_mem e hx) hq)
    by_cases hq : q e = true
    · have hp := himp e (List.mem_cons_self e l) hq
      simp only [List.filter_cons, hq, hp, if_true, List.map_cons, List.sum_cons]
      omega
    · have hq2 : q e = false := by revert hq; cases q e <;> simp
      by_cases hp : p e = true
      · simp only [List.filter_cons, hq2, hp, if_true, List.map_cons, List.sum_cons,
          Bool.false_eq_true, if_false]
        omega
      · have hp2 : p e = false := by revert hp; cases p e <;> simp
        simp only [List.filter_cons, hq2, hp2, Bool.false_eq_true, if_false]
        exact ih2

theorem SBound_cons_le (σ : List (String × String)) (x : String) (visited : List String) :
    SBound σ (x :: visited) ≤ SBound σ visited := by
  apply sum_map_filter_le
  intro e _ hq
  simp only [Bool.not_eq_true', decide_eq_false_iff_not, List.mem_cons, not_or] at hq
  simp [hq.2]

theorem SBound_lookup (σ : List (String × String)) (curr c : String)
    (visited : List String) (hl : alookup σ curr = some c) (hnv : curr ∉ visited) :
    SBound σ (curr :: visited) + (parentCountOf c + 1) ≤ SBound σ visited := by
  induction σ with
  | nil => simp [alookup] at hl
  | cons e l ih =>
    by_cases he : e.1 = curr
    · have hc : c = e.2 := by
        rw [alookup, if_pos he] at hl
        exact (Option.some_inj.mp hl).symm
      have h1 : (!decide (e.1 ∈ curr :: visited)) = false := by simp [he]
      have h2 : (!decide (e.1 ∈ visited)) = true := by
        simp only [Bool.not_eq_true', decide_eq_false_iff_not, Bool.not_eq_false,
          decide_eq_true_eq]
        rw [he]; exact hnv
      have htail := SBound_cons_le l curr visited
      simp only [SBound, List.filter_cons, h1, h2, Bool.false_eq_true, if_false, if_true,
        List.map_cons, List.sum_cons] at htail ⊢
      rw [hc]
      omega
    · rw [alookup, if_neg he] at hl
      have hrec := ih hl
      by_cases hv : e.1 ∈ visited
      · have h1 : (!decide (e.1 ∈ curr :: visited)) = false := by simp [hv]
        have h2 : (!decide (e.1 ∈ visited)) = false := by simp [hv]
        simp only [SBound, List.filter_cons, h1, h2, Bool.false_eq_true, if_false] at hrec ⊢
        exact hrec
      · have h1 : (!decide (e.1 ∈ curr :: visited)) = true := by
          simp only [Bool.not_eq_false, Bool.not_eq_true', decide_eq_false_iff_not,
            List.mem_cons, not_or]
          exact ⟨he, hv⟩
        have h2 : (!decide (e.1 ∈ visited)) = true := by simp [hv]
        simp only [SBound, List.filter_cons, h1, h2, if_true, List.map_cons,
          List.sum_cons] at hrec ⊢
        omega

theorem process_fold_length (curr : String) (visited : List String) :
    ∀ (ps : List String) (st : List String × CommitGraph),
      ((ps.foldl (process_parent curr visited) st).1).length ≤ st.1.length + ps.length := by
  intro ps
  induction ps with
  | nil => intro st; simp
  | cons p ps ih =>
    intro st
    have h1 := ih (process_parent curr visited st p)
    have h2 : (process_parent curr visited st p).1.length ≤ st.1.length + 1 := by
      simp only [process_parent]
      by_cases hp : p ∈ visited
      · simp [hp]
      · simp [hp]
    simp only [List.foldl_cons, List.length_cons]
    omega

theorem buildLoop_isSome (σ : List (String × String)) :
    ∀ (fuel : Nat) (wl visited : List String) (g : CommitGraph),
      wl.length + SBound σ visited < fuel → (buildLoop σ fuel wl visited g).isSome := by
  intro fuel
  induction fuel with
  | zero => intro wl visited g h; exact absurd h (Nat.not_lt_zero _)
  | succ n ih =>
    intro wl visited g h
    match wl with
    | [] => simp [buildLoop]
    | curr :: rest =>
      rw [buildLoop]
      by_cases hv : curr ∈ visited
      · rw [if_pos hv]
        apply ih
        simp only [List.length_cons] at h
        omega
      · rw [if_neg hv]
        cases hro : read_object σ curr with
        | none =>
          apply ih
          have hmono := SBound_cons_le σ curr visited
          simp only [List.length_cons] at h
          omega
        | some contents =>
          obtain ⟨c, hc, hcontents⟩ : ∃ c, alookup σ curr = some c ∧
              contents = split_on_newlines c := by
            rw [read_object, Option.map_eq_some'] at hro
            obtain ⟨c, hc1, hc2⟩ := hro
            exact ⟨c, hc1, hc2.symm⟩
          apply ih
          have hS := SBound_lookup σ curr c visited hc hv
          have hlen := process_fold_length curr (curr :: visited)
            (find_parent_hashes (String.intercalate "\n" contents)) (rest, ensure_node g curr)
          have hps : (find_parent_hashes (String.intercalate "\n" contents)).length =
              parentCountOf c := by
            rw [hcontents]; rfl
          have hfst : ((rest, ensure_node g curr) : List String × CommitGraph).1.length =
              rest.length := rfl
          simp only [List.length_cons] at h
          omega

/-- C9: for every finite object store and every seed list, the builder's
worklist loop terminates within the `build_fuel` bound — the visited set
only grows and each stored object contributes its work at most once — so
`build_commit_graph` always returns a graph. -/
theorem build_commit_graph_total (σ : List (String × String))
    (branches_list : List (String × String)) :
    ∃ g, build_commit_graph σ branches_list = some g := by
  apply Option.isSome_iff_exists.mp
  apply buildLoop_isSome
  simp only [build_fuel]
  omega

/-- C8: building from a single seed whose object is absent from the store
returns the graph holding exactly that node, with empty parents and
children. -/
theorem build_commit_graph_missing_seed (σ : List (String × String))
    (branch_name seed : String) (hmiss : alookup σ seed = none) :
    build_commit_graph σ [(branch_name, seed)] =
      some [(seed, CommitNode.mk seed [] [])] := by
  show buildLoop σ ([seed].length + SBound σ [] + 1) [seed] [] [] = _
  have hfuel : [seed].length + SBound σ [] + 1 = (SBound σ [] + 1) + 1 := by
    simp; omega
  rw [hfuel, buildLoop]
  have hro : read_object σ seed = none := by
    rw [read_object, hmiss]; rfl
  simp [hro, ensure_node, lookupNode, alookup, buildLoop]

/-!
### The bidirectional-edge invariant of the builder

Lookup characterisations of the three graph mutations, then preservation of
the invariant (together with the closure of recorded edges into the key
set) through every step of the worklist loop.
-/

theorem alookup_append_some {β : Type} {l1 : List (String × β)} (l2 : List (String × β))
    {a : String} {v : β} (h : alookup l1 a = some v) : alookup (l1 ++ l2) a = some v := by
  induction l1 with
  | nil => simp [alookup] at h
  | cons e l ih =>
    by_cases he : e.1 = a
    · rw [alookup, if_pos he] at h
      simpa [alookup, he] using h
    · rw [alookup, if_neg he] at h
      simpa [alookup, he] using ih h

theorem alookup_append_none {β : Type} {l1 : List (String × β)} (l2 : List (String × β))
    {a : String} (h : alookup l1 a = none) : alookup (l1 ++ l2) a = alookup l2 a := by
  induction l1 with
  | nil => simp [alookup]
  | cons e l ih =>
    by_cases he : e.1 = a
    · rw [alookup, if_pos he] at h
      exact absurd h (by simp)
    · rw [alookup, if_neg he] at h
      simpa [alookup, he] using ih h

theorem lookupNode_update_node (g : CommitGraph) (h a : String) (f : CommitNode → CommitNode) :
    lookupNode (update_node g h f) a =
      if a = h then (lookupNode g a).map f else lookupNode g a := by
  induction g with
  | nil => simp [lookupNode, update_node, alookup]
  | cons e l ih =>
    simp only [lookupNode, update_node, List.map_cons, alookup] at ih ⊢
    by_cases heh : e.1 = h
    · by_cases hea : e.1 = a
      · have hah : a = h := by rw [← hea, heh]
        simp [heh, hea, hah]
      · have hha : ¬ h = a := fun hc => hea (by rw [heh, hc])
        have hah : ¬ a = h := fun hc => hha hc.symm
        simp [heh, hha, hah, ih]
    · by_cases hea : e.1 = a
      · have hah : ¬ a = h := fun hc => heh (by rw [hea, hc])
        simp [heh, hea, hah]
      · simp [heh, hea, ih]

theorem lookupNode_ensure_node (g : CommitGraph) (h a : String) :
    lookupNode (ensure_node g h) a =
      if a = h ∧ lookupNode g h = none then some (CommitNode.mk h [] [])
      else lookupNode g a := by
  rw [ensure_node]
  cases hg : lookupNode g h with
  | some n => simp [hg]
  | none =>
    simp only [hg, Option.isSome_none, Bool.false_eq_true, if_false]
    by_cases ha : a = h
    · subst ha
      rw [show lookupNode (g ++ [(a, CommitNode.mk a [] [])]) a =
          alookup (g ++ [(a, CommitNode.mk a [] [])]) a from rfl]
      rw [alookup_append_none _ hg]
      simp [alookup]
    · cases hga : lookupNode g a with
      | some n =>
        simp only [ha, false_and, if_false]
        exact alookup_append_some _ hga
      | none =>
        simp only [ha, false_and, if_false]
        rw [show lookupNode (g ++ [(h, CommitNode.mk h [] [])]) a =
            alookup (g ++ [(h, CommitNode.mk h [] [])]) a from rfl]
        rw [alookup_append_none _ hga]
        have hha : ¬ h = a := fun hc => ha hc.symm
        simp [alookup, hha]

theorem mem_add_parent (n : CommitNode) (p x : String) :
    x ∈ (n.add_parent p).parents ↔ x ∈ n.parents ∨ x = p := by
  rw [CommitNode.add_parent]
  by_cases hp : p ∈ n.parents
  · simp only [if_pos hp]
    constructor
    · exact Or.inl
    · rintro (hx | rfl)
      · exact hx
      · exact hp
  · simp [if_neg hp]

theorem add_parent_children (n : CommitNode) (p : String) :
    (n.add_parent p).children = n.children := by
  rw [CommitNode.add_parent]; split <;> rfl

theorem mem_add_child (n : CommitNode) (c x : String) :
    x ∈ (n.add_child c).children ↔ x ∈ n.children ∨ x = c := by
  rw [CommitNode.add_child]
  by_cases hc : c ∈ n.children
  · simp only [if_pos hc]
    constructor
    · exact Or.inl
    · rintro (hx | rfl)
      · exact hx
      · exact hc
  · simp [if_neg hc]

theorem add_child_parents (n : CommitNode) (c : String) :
    (n.add_child c).parents = n.parents := by
  rw [CommitNode.add_child]; split <;> rfl

theorem invB_nil : InvB [] := by
  constructor
  · intro a b na nb ha
    simp [lookupNode, alookup] at ha
  · intro a na ha
    simp [lookupNode, alookup] at ha

theorem invB_ensure_node (g : CommitGraph) (h : String) (hg : InvB g) :
    InvB (ensure_node g h) := by
  obtain ⟨hbi, hcl⟩ := hg
  cases hsome : lookupNode g h with
  | some n => rw [ensure_node, hsome]; exact ⟨hbi, hcl⟩
  | none =>
    constructor
    · intro a b na nb ha hb
      rw [lookupNode_ensure_node, hsome] at ha hb
      by_cases hah : a = h
      · rw [if_pos ⟨hah, rfl⟩] at ha
        by_cases hbh : b = h
        · rw [if_pos ⟨hbh, rfl⟩] at hb
          cases Option.some_inj.mp ha
          cases Option.some_inj.mp hb
          simp
        · rw [if_neg (by simp [hbh])] at hb
          cases Option.some_inj.mp ha
          have hclb := (hcl b nb hb).2
          constructor
          · intro hmem
            simp at hmem
          · intro hmem
            have := hclb a hmem
            rw [hah, hsome] at this
            simp at this
      · rw [if_neg (by simp [hah])] at ha
        by_cases hbh : b = h
        · rw [if_pos ⟨hbh, rfl⟩] at hb
          cases Option.some_inj.mp hb
          have hcla := (hcl a na ha).1
          constructor
          · intro hmem
            have := hcla b hmem
            rw [hbh, hsome] at this
            simp at this
          · intro hmem
            simp at hmem
        · rw [if_neg (by simp [hbh])] at hb
          exact hbi a b na nb ha hb
    · intro a na ha
      rw [lookupNode_ensure_node, hsome] at ha
      by_cases hah : a = h
      · rw [if_pos ⟨hah, rfl⟩] at ha
        cases Option.some_inj.mp ha
        constructor <;> intro x hx <;> simp at hx
      · rw [if_neg (by simp [hah])] at ha
        have hcla := hcl a na ha
        constructor <;> intro x hx
        · have := hcla.1 x hx
          rw [lookupNode_ensure_node, hsome]
          by_cases hxh : x = h
          · simp [hxh]
          · simpa [hxh] using this
        · have := hcla.2 x hx
          rw [lookupNode_ensure_node, hsome]
          by_cases hxh : x = h
          · simp [hxh]
          · simpa [hxh] using this

/-- Lookup characterisation of `add_edge`: the parent is ensured a node,
then the parent's node gains `curr` as a child and `curr`'s node gains
`parent` as a parent. -/
theorem lookupNode_add_edge (g : CommitGraph) (curr parent a : String) :
    lookupNode (add_edge g curr parent) a =
      (lookupNode (ensure_node g parent) a).map (fun n =>
        let n1 := if a = parent then n.add_child curr else n
        if a = curr then n1.add_parent parent else n1) := by
  rw [add_edge, lookupNode_update_node, lookupNode_update_node]
  cases hlv : lookupNode (ensure_node g parent) a with
  | none =>
    by_cases hac : a = curr <;> by_cases hap : a = parent <;> simp [hac, hap, hlv]
  | some n =>
    by_cases hac : a = curr
    · by_cases hap : a = parent
      · have hcp : curr = parent := hac.symm.trans hap
        simp [hac, hap, hlv, hcp]
      · have hcp : ¬ curr = parent := fun hc => hap (hac.trans hc)
        simp [hac, hap, hlv, hcp]
    · by_cases hap : a = parent
      · have hpc : ¬ parent = curr := fun hc => hac (hap.trans hc)
        simp [hac, hap, hlv, hpc]
      · simp [hac, hap, hlv]

/-- Membership in the parents of a node after the `add_edge` per-node
transformation. -/
theorem mem_parents_edge_fn (n : CommitNode) (a curr parent x : String) :
    (x ∈ (let n1 := if a = parent then n.add_child curr else n;
          if a = curr then n1.add_parent parent else n1).parents) ↔
      (x ∈ n.parents ∨ (a = curr ∧ x = parent)) := by
  by_cases hac : a = curr
  · subst hac
    by_cases hap : a = parent
    · subst hap
      simp [mem_add_parent, add_child_parents]
    · simp [hap, mem_add_parent]
  · by_cases hap : a = parent
    · subst hap
      simp [hac, add_child_parents]
    · simp [hac, hap]

/-- Membership in the children of a node after the `add_edge` per-node
transformation. -/
theorem mem_children_edge_fn (n : CommitNode) (a curr parent x : String) :
    (x ∈ (let n1 := if a = parent then n.add_child curr else n;
          if a = curr then n1.add_parent parent else n1).children) ↔
      (x ∈ n.children ∨ (a = parent ∧ x = curr)) := by
  by_cases hac : a = curr
  · subst hac
    by_cases hap : a = parent
    · subst hap
      simp [mem_add_child, add_parent_children]
    · simp [hap, add_parent_children]
  · by_cases hap : a = parent
    · subst hap
      simp [hac, mem_add_child]
    · simp [hac, hap]

theorem invB_add_edge (g : CommitGraph) (curr parent : String)
    (hcurr : (lookupNode g curr).isSome) (hg : InvB g) :
    InvB (add_edge g curr parent) := by
  have hg1 : InvB (ensure_node g parent) := invB_ensure_node g parent hg
  obtain ⟨hbi, hcl⟩ := hg1
  have hcurr1 : (lookupNode (ensure_node g parent) curr).isSome := by
    rw [lookupNode_ensure_node]
    by_cases hc : curr = parent ∧ lookupNode g parent = none
    · simp [hc]
    · simpa [hc] using hcurr
  have hpar1 : (lookupNode (ensure_node g parent) parent).isSome := by
    rw [lookupNode_ensure_node]
    cases hp : lookupNode g parent with
    | some n => simp [hp]
    | none => simp [hp]
  constructor
  · intro a b na nb ha hb
    rw [lookupNode_add_edge] at ha hb
    obtain ⟨na1, hna1, hna⟩ := Option.map_eq_some'.mp ha
    obtain ⟨nb1, hnb1, hnb⟩ := Option.map_eq_some'.mp hb
    have hmema : b ∈ na.parents ↔ (b ∈ na1.parents ∨ (a = curr ∧ b = parent)) := by
      rw [← hna]
      exact mem_parents_edge_fn na1 a curr parent b
    have hmemb : a ∈ nb.children ↔ (a ∈ nb1.children ∨ (b = parent ∧ a = curr)) := by
      rw [← hnb]
      exact mem_children_edge_fn nb1 b curr parent a
    rw [hmema, hmemb, hbi a b na1 nb1 hna1 hnb1]
    tauto
  · intro a na ha
    rw [lookupNode_add_edge] at ha
    obtain ⟨na1, hna1, hna⟩ := Option.map_eq_some'.mp ha
    have hisSome : ∀ x, (lookupNode (ensure_node g parent) x).isSome →
        (lookupNode (add_edge g curr parent) x).isSome := by
      intro x hx
      obtain ⟨n, hn⟩ := Option.isSome_iff_exists.mp hx
      rw [lookupNode_add_edge, hn]
      rfl
    constructor
    · intro x hx
      have hx1 : x ∈ na1.parents ∨ (a = curr ∧ x = parent) := by
        rw [← hna] at hx
        exact (mem_parents_edge_fn na1 a curr parent x).mp hx
      rcases hx1 with hx1 | ⟨_, rfl⟩
      · exact hisSome x ((hcl a na1 hna1).1 x hx1)
      · exact hisSome x hpar1
    · intro x hx
      have hx1 : x ∈ na1.children ∨ (a = parent ∧ x = curr) := by
        rw [← hna] at hx
        exact (mem_children_edge_fn na1 a curr parent x).mp hx
      rcases hx1 with hx1 | ⟨_, rfl⟩
      · exact hisSome x ((hcl a na1 hna1).2 x hx1)
      · exact hisSome x hcurr1

theorem lookupNode_add_edge_isSome (g : CommitGraph) (curr parent x : String)
    (hx : (lookupNode g x).isSome) :
    (lookupNode (add_edge g curr parent) x).isSome := by
  rw [lookupNode_add_edge]
  have hens : (lookupNode (ensure_node g parent) x).isSome := by
    rw [lookupNode_ensure_node]
    by_cases hc : x = parent ∧ lookupNode g parent = none
    · simp [hc]
    · simpa [hc] using hx
  obtain ⟨n, hn⟩ := Option.isSome_iff_exists.mp hens
  rw [hn]
  rfl

theorem invB_process_fold (curr : String) (visited : List String) :
    ∀ (ps : List String) (st : List String × CommitGraph),
      InvB st.2 → (lookupNode st.2 curr).isSome →
      InvB (ps.foldl (process_parent curr visited) st).2 ∧
      (lookupNode (ps.foldl (process_parent curr visited) st).2 curr).isSome := by
  intro ps
  induction ps with
  | nil => intro st h1 h2; exact ⟨h1, h2⟩
  | cons p ps ih =>
    intro st h1 h2
    rw [List.foldl_cons]
    exact ih (process_parent curr visited st p)
      (invB_add_edge st.2 curr p h2 h1)
      (lookupNode_add_edge_isSome st.2 curr p curr h2)

theorem buildLoop_invB (σ : List (String × String)) :
    ∀ (fuel : Nat) (wl visited : List String) (g gout : CommitGraph),
      InvB g → buildLoop σ fuel wl visited g = some gout → InvB gout := by
  intro fuel
  induction fuel with
  | zero =>
    intro wl visited g gout hInv heq
    cases wl with
    | nil =>
      rw [buildLoop] at heq
      cases heq
      exact hInv
    | cons curr rest =>
      rw [buildLoop] at heq
      exact Option.noConfusion heq
  | succ n ih =>
    intro wl visited g gout hInv heq
    cases wl with
    | nil =>
      rw [buildLoop] at heq
      cases heq
      exact hInv
    | cons curr rest =>
      rw [buildLoop] at heq
      by_cases hv : curr ∈ visited
      · rw [if_pos hv] at heq
        exact ih rest visited g gout hInv heq
      · rw [if_neg hv] at heq
        have hInv1 : InvB (ensure_node g curr) := invB_ensure_node g curr hInv
        have hsome1 : (lookupNode (ensure_node g curr) curr).isSome := by
          rw [lookupNode_ensure_node]
          cases hgc : lookupNode g curr with
          | some m => simp [hgc]
          | none => simp [hgc]
        cases hro : read_object σ curr with
        | none =>
          simp only [hro] at heq
          exact ih rest (curr :: visited) (ensure_node g curr) gout hInv1 heq
        | some contents =>
          simp only [hro] at heq
          have hfold := invB_process_fold curr (curr :: visited)
            (find_parent_hashes (String.intercalate "\n" contents))
            (rest, ensure_node g curr) hInv1 hsome1
          exact ih _ _ _ _ hfold.1 heq

/-- C2: after `build_commit_graph` returns, for any two nodes of the graph,
one's hash is among the other's parents exactly when the other's hash is
among the first one's children: each edge is recorded in both directions at
the moment it is discovered. -/
theorem build_commit_graph_bidirectional (σ : List (String × String))
    (branches_list : List (String × String)) (g : CommitGraph)
    (hbuild : build_commit_graph σ branches_list = some g) :
    ∀ a b na nb, lookupNode g a = some na → lookupNode g b = some nb →
      (b ∈ na.parents ↔ a ∈ nb.children) := by
  have hbuild2 : buildLoop σ (build_fuel σ ((branches_list.map Prod.snd).reverse))
      ((branches_list.map Prod.snd).reverse) [] [] = some g := hbuild
  exact (buildLoop_invB σ _ _ [] [] g invB_nil hbuild2).1

/-- C2, witness: a two-commit store, with the invariant instantiated on the
two nodes of the built graph. -/
theorem build_commit_graph_bidirectional_witness :
    build_commit_graph [("c2", "tree t\nparent c1"), ("c1", "tree u")] [("main", "c2")] =
      some [("c2", CommitNode.mk "c2" ["c1"] []), ("c1", CommitNode.mk "c1" [] ["c2"])] ∧
    ("c1" ∈ (CommitNode.mk "c2" ["c1"] []).parents ↔
      "c2" ∈ (CommitNode.mk "c1" [] ["c2"]).children) :=
  ⟨rfl,
   build_commit_graph_bidirectional
     [("c2", "tree t\nparent c1"), ("c1", "tree u")] [("main", "c2")]
     [("c2", CommitNode.mk "c2" ["c1"] []), ("c1", CommitNode.mk "c1" [] ["c2"])]
     rfl "c2" "c1" (CommitNode.mk "c2" ["c1"] []) (CommitNode.mk "c1" [] ["c2"]) rfl rfl⟩

/-- C8, witness: a concrete store that lacks the seed's object. -/
theorem build_commit_graph_missing_seed_witness :
    alookup [("bb", "tree x")] "aa" = none ∧
    build_commit_graph [("bb", "tree x")] [("main", "aa")] =
      some [("aa", CommitNode.mk "aa" [] [])] :=
  ⟨rfl, build_commit_graph_missing_seed _ "main" "aa" rfl⟩

/-!
## Claims about the Object Reader and repository discovery
-/

/-- C7, counterexample: a stored object whose bytes fail `zlib` decompression
makes `decompress_git_object` raise (`Except.error`) instead of returning the
not-found signal — the `except` clause catches only `FileNotFoundError`, so
the claim that every collaborator-level error is converted to not-found is
false. -/
theorem decompress_git_object_zlib_error_escapes :
    decompress_git_object [("ab", RawRead.ok (ZlibData.corrupt "incorrect header check"))] "ab" =
      Except.error (PyError.zlibError "incorrect header check") ∧
    decompress_git_object [("ab", RawRead.ok (ZlibData.corrupt "incorrect header check"))] "ab" ≠
      Except.ok none := by
  refine ⟨rfl, ?_⟩
  intro hc
  rw [show decompress_git_object
        [("ab", RawRead.ok (ZlibData.corrupt "incorrect header check"))] "ab" =
      Except.error (PyError.zlibError "incorrect header check") from rfl] at hc
  exact Except.noConfusion hc

/-- C7, amended: only the `FileNotFoundError` filesystem error is caught and
converted to the not-found signal `none`; a decompression (`zlib`) error or
any other filesystem error inside the `try` block propagates to the caller
as an exception, and a cleanly decompressing object yields its text split on
newlines. -/
theorem decompress_git_object_error_contract (fs : List (String × RawRead)) (h : String) :
    (rawReadOf fs h = RawRead.notFound →
      decompress_git_object fs h = Except.ok none) ∧
    (∀ m, rawReadOf fs h = RawRead.fsError m →
      decompress_git_object fs h = Except.error (PyError.osError m)) ∧
    (∀ m, rawReadOf fs h = RawRead.ok (ZlibData.corrupt m) →
      decompress_git_object fs h = Except.error (PyError.zlibError m)) ∧
    (∀ s, rawReadOf fs h = RawRead.ok (ZlibData.wellFormed s) →
      decompress_git_object fs h = Except.ok (some (split_on_newlines s))) := by
  refine ⟨fun hr => ?_, fun m hr => ?_, fun m hr => ?_, fun s hr => ?_⟩ <;>
    simp [decompress_git_object, hr]

/-- C7, witness: the four reader outcomes realised on a concrete store. -/
theorem decompress_git_object_error_contract_witness :
    decompress_git_object
        [("bb", RawRead.fsError "permission denied"),
         ("cc", RawRead.ok (ZlibData.corrupt "bad header")),
         ("dd", RawRead.ok (ZlibData.wellFormed "tree t\nparent a1"))] "aa" =
      Except.ok none ∧
    decompress_git_object
        [("bb", RawRead.fsError "permission denied"),
         ("cc", RawRead.ok (ZlibData.corrupt "bad header")),
         ("dd", RawRead.ok (ZlibData.wellFormed "tree t\nparent a1"))] "bb" =
      Except.error (PyError.osError "permission denied") ∧
    decompress_git_object
        [("bb", RawRead.fsError "permission denied"),
         ("cc", RawRead.ok (ZlibData.corrupt "bad header")),
         ("dd", RawRead.ok (ZlibData.wellFormed "tree t\nparent a1"))] "dd" =
      Except.ok (some ["tree t", "parent a1"]) :=
  ⟨(decompress_git_object_error_contract _ "aa").1 (by decide),
   (decompress_git_object_error_contract _ "bb").2.1 "permission denied" (by decide),
   by
    have h := (decompress_git_object_error_contract
      [("bb", RawRead.fsError "permission denied"),
       ("cc", RawRead.ok (ZlibData.corrupt "bad header")),
       ("dd", RawRead.ok (ZlibData.wellFormed "tree t\nparent a1"))] "dd").2.2.2
      "tree t\nparent a1" (by decide)
    rw [h]
    rfl⟩

/-- C10: when the working directory is the filesystem root itself, the
upward-walk loop body is never entered, so discovery reports the
not-a-repository fatal condition even when `/.git` exists. -/
theorem get_git_directory_at_root (pathExists : List String → Bool)
    (_hgit : pathExists [".git"] = true) :
    get_git_directory pathExists [] = Except.error "Not inside a Git repository" := by
  simp [get_git_directory]

/-- C10, witness: a filesystem whose only entry is `/.git`. -/
theorem get_git_directory_at_root_witness :
    (fun p : List String => p == [".git"]) [".git"] = true ∧
    get_git_directory (fun p : List String => p == [".git"]) [] =
      Except.error "Not inside a Git repository" :=
  ⟨by decide, get_git_directory_at_root _ (by decide)⟩

/-!
## Claims about the segmented renderer

The concrete scenario used below: the order is `["a", "b"]`, node `a` has
the single parent `"p"` and `b` is not that parent, so a segment break is
emitted after `a`; node `b` has the single recorded child `"c"`, so the
opener before `b` has one child to print.  The renderer output is
`"a\np \n=\n\n=c\nb\n"`, whose lines are `a`, `p ` (trailing space), `=`,
a blank line, `=c`, `b`.
-/

/-- C3, counterexample: at a segment break after commit `a` with parent set
`{p}`, the rendered output has no line `"p="`: the parent hashes (each with
a trailing space) and the `=` marker are printed on two separate lines, so
the terminator is not the single line `<parents>=` the claim describes. -/
theorem terminator_not_single_line :
    ordered_print [("a", CommitNode.mk "a" ["p"] []), ("b", CommitNode.mk "b" [] ["c"])]
        ["a", "b"] [] = "a\np \n=\n\n=c\nb\n" ∧
    split_on_newlines "a\np \n=\n\n=c\nb\n" = ["a", "p ", "=", "", "=c", "b", ""] ∧
    "p=" ∉ split_on_newlines "a\np \n=\n\n=c\nb\n" :=
  ⟨rfl, rfl, by decide⟩

/-- C3, amended: whenever the renderer emits a segment break, it prints the
current commit's parent hashes each immediately followed by one space, then
a newline (so the parents line carries a trailing space, and is empty when
there are no parents), then a line holding only `=`, then exactly one blank
line, and the walk continues on the rest of the order with the jump flag
set. -/
theorem segment_terminator_format (commit_nodes : CommitGraph)
    (head_to_branches : List (String × List String))
    (commit next : String) (rest printed_commits : List String) (jump : Bool)
    (hskip : commit ∉ printed_commits)
    (hbreak : next ∉ ((lookupNode commit_nodes commit).getD
      (CommitNode.mk commit [] [])).parents) :
    ordered_print_loop commit_nodes head_to_branches (commit :: next :: rest)
        printed_commits jump =
      (if jump
        then openerOut ((lookupNode commit_nodes commit).getD
          (CommitNode.mk commit [] [])).children
        else "")
      ++ (commit ++ branchesOut head_to_branches commit ++ "\n")
      ++ String.join (((lookupNode commit_nodes commit).getD
          (CommitNode.mk commit [] [])).parents.map (fun p => p ++ " "))
      ++ "\n" ++ "=\n" ++ "\n"
      ++ ordered_print_loop commit_nodes head_to_branches (next :: rest)
          (commit :: printed_commits) true := by
  rw [ordered_print_loop]
  simp only [if_neg hskip, if_neg hbreak, terminatorOut]
  simp [String.join, ← String.append_assoc]

/-- C3, witness: the amended terminator shape realised on the concrete
scenario. -/
theorem segment_terminator_format_witness :
    ordered_print_loop [("a", CommitNode.mk "a" ["p"] []), ("b", CommitNode.mk "b" [] ["c"])]
        [] ["a", "b"] [] false =
      "a\n" ++ "p " ++ "\n" ++ "=\n" ++ "\n" ++
      ordered_print_loop [("a", CommitNode.mk "a" ["p"] []), ("b", CommitNode.mk "b" [] ["c"])]
        [] ["b"] ["a"] true := by
  have h := segment_terminator_format
    [("a", CommitNode.mk "a" ["p"] []), ("b", CommitNode.mk "b" [] ["c"])]
    [] "a" "b" [] [] false (by decide) (by decide)
  rw [h]
  rfl

/-- C4, counterexample: after the break, the resumed commit `b` with
recorded children `{c}` is not announced by any line `"=b c"` (nor any line
starting with `"=b"`): the code prints `=` immediately followed by the first
child and each child on its own line, and never prints the resumed hash
after `=`. -/
theorem opener_does_not_name_resumed_commit :
    ordered_print [("a", CommitNode.mk "a" ["p"] []), ("b", CommitNode.mk "b" [] ["c"])]
        ["a", "b"] [] = "a\np \n=\n\n=c\nb\n" ∧
    "=b c" ∉ split_on_newlines "a\np \n=\n\n=c\nb\n" ∧
    (∀ l ∈ split_on_newlines "a\np \n=\n\n=c\nb\n", l.data.take 2 ≠ ['=', 'b']) :=
  ⟨rfl, by decide, by decide⟩

/-- C4, amended: when the renderer opens a new segment after a break, it
emits `=` immediately followed by the resumed node's recorded children each
terminated by a newline (so `=` is glued to the first child hash, and the
children appear one per line, not space-separated), followed by the resumed
commit's own line; the resumed commit's hash is not printed after `=`, and
when the node has no recorded children the `=` is glued directly onto the
resumed commit's own line. -/
theorem segment_opener_format (commit_nodes : CommitGraph)
    (head_to_branches : List (String × List String))
    (commit : String) (rest printed_commits : List String)
    (hskip : commit ∉ printed_commits) :
    ∃ s : String,
      ordered_print_loop commit_nodes head_to_branches (commit :: rest)
          printed_commits true =
        "=" ++ String.join (((lookupNode commit_nodes commit).getD
            (CommitNode.mk commit [] [])).children.map (fun c => c ++ "\n"))
          ++ (commit ++ branchesOut head_to_branches commit ++ "\n") ++ s := by
  rw [ordered_print_loop]
  simp only [if_neg hskip]
  cases rest with
  | nil =>
    exact ⟨"", by simp [openerOut, String.join]⟩
  | cons next rest2 =>
    by_cases hmem : next ∈ ((lookupNode commit_nodes commit).getD
      (CommitNode.mk commit [] [])).parents
    · refine ⟨ordered_print_loop commit_nodes head_to_branches (next :: rest2)
        (commit :: printed_commits) false, ?_⟩
      simp [if_pos hmem, openerOut, String.join, String.append_assoc]
    · refine ⟨terminatorOut ((lookupNode commit_nodes commit).getD
          (CommitNode.mk commit [] [])).parents ++
        ordered_print_loop commit_nodes head_to_branches (next :: rest2)
          (commit :: printed_commits) true, ?_⟩
      simp [if_neg hmem, openerOut, String.join, String.append_assoc]

/-- C4, witness: the amended opener shape realised on the concrete
scenario (resumed commit `b`, recorded children `{c}`). -/
theorem segment_opener_format_witness :
    ∃ s : String,
      ordered_print_loop [("a", CommitNode.mk "a" ["p"] []), ("b", CommitNode.mk "b" [] ["c"])]
          [] ["b"] ["a"] true =
        "=" ++ "c\n" ++ "b\n" ++ s := by
  have h := segment_opener_format
    [("a", CommitNode.mk "a" ["p"] []), ("b", CommitNode.mk "b" [] ["c"])]
    [] "b" [] ["a"] (by decide)
  obtain ⟨s, hs⟩ := h
  exact ⟨s, by rw [hs]; rfl⟩

/-- C5, counterexample: a one-element order whose commit has a parent ends
with the commit's own line only — no parent hashes, no `=` marker and no
blank line are printed for the last element, contradicting the claim that
the renderer closes the segment there. -/
theorem last_element_prints_no_terminator :
    ordered_print [("a", CommitNode.mk "a" ["p"] [])] ["a"] [] = "a\n" ∧
    split_on_newlines "a\n" = ["a", ""] ∧
    "=" ∉ split_on_newlines "a\n" ∧
    "p " ∉ split_on_newlines "a\n" :=
  ⟨rfl, rfl, by decide, by decide⟩

/-- C5, amended: when the renderer reaches the last element of the order
(and that commit was not already printed), it emits the pending segment
opener if a break just occurred, then the commit's own line, and returns
immediately: no terminator marker and no blank separator line are emitted
for the last element. -/
theorem last_element_format (commit_nodes : CommitGraph)
    (head_to_branches : List (String × List String))
    (commit : String) (printed_commits : List String) (jump : Bool)
    (hskip : commit ∉ printed_commits) :
    ordered_print_loop commit_nodes head_to_branches [commit] printed_commits jump =
      (if jump
        then openerOut ((lookupNode commit_nodes commit).getD
          (CommitNode.mk commit [] [])).children
        else "")
      ++ (commit ++ branchesOut head_to_branches commit ++ "\n") := by
  rw [ordered_print_loop]
  simp [if_neg hskip]

/-- C5, witness: the last-element behaviour realised concretely, with and
without a pending opener. -/
theorem last_element_format_witness :
    ordered_print_loop [("a", CommitNode.mk "a" ["p"] [])] [] ["a"] [] false = "a\n" ∧
    ordered_print_loop [("a", CommitNode.mk "a" ["p", "q"] ["k"] )] [] ["a"] [] true =
      "=k\na\n" := by
  constructor
  · have h := last_element_format [("a", CommitNode.mk "a" ["p"] [])] [] "a" [] false
      (by decide)
    rw [h]
    rfl
  · have h := last_element_format [("a", CommitNode.mk "a" ["p", "q"] ["k"])] [] "a" [] true
      (by decide)
    rw [h]
    rfl

/-!
## Correctness of the topological sorter

Infrastructure: association-list bookkeeping for the indegree dictionary,
the meaning of the running indegree (`remCount`), and the characterisation
of one loop iteration.
-/

theorem alookup_some_mem {β : Type} {l : List (String × β)} {a : String} {b : β}
    (h : alookup l a = some b) : (a, b) ∈ l := by
  induction l with
  | nil => simp [alookup] at h
  | cons e le ih =>
    by_cases he : e.1 = a
    · rw [alookup, if_pos he] at h
      cases Option.some_inj.mp h
      have hea : (a, e.2) = e := by rw [← he]
      rw [hea]
      exact List.mem_cons_self e le
    · rw [alookup, if_neg he] at h
      exact List.mem_cons_of_mem e (ih h)

theorem alookup_some_mem_keys {β : Type} {l : List (String × β)} {a : String} {b : β}
    (h : alookup l a = some b) : a ∈ l.map Prod.fst := by
  have := alookup_some_mem h
  exact List.mem_map.mpr ⟨(a, b), this, rfl⟩

theorem alookup_isSome_of_mem_keys {β : Type} {l : List (String × β)} {a : String}
    (h : a ∈ l.map Prod.fst) : (alookup l a).isSome := by
  induction l with
  | nil => simp at h
  | cons e le ih =>
    by_cases he : e.1 = a
    · rw [alookup, if_pos he]; rfl
    · rw [alookup, if_neg he]
      apply ih
      rcases List.mem_map.mp h with ⟨x, hx, hfst⟩
      rcases List.mem_cons.mp hx with hx | hx
      · exact absurd (hx ▸ hfst) he
      · exact List.mem_map.mpr ⟨x, hx, hfst⟩

theorem alookup_eq_some_of_nodup {β : Type} {l : List (String × β)} {a : String} {b : β}
    (hnd : (l.map Prod.fst).Nodup) (h : (a, b) ∈ l) : alookup l a = some b := by
  induction l with
  | nil => simp at h
  | cons e le ih =>
    rcases List.mem_cons.mp h with h | h
    · rw [← h, alookup, if_pos rfl]
    · have hne : e.1 ≠ a := by
        intro hc
        have : e.1 ∈ le.map Prod.fst := List.mem_map.mpr ⟨(a, b), h, hc.symm⟩
        exact (List.nodup_cons.mp hnd).1 this
      rw [alookup, if_neg hne]
      exact ih (List.nodup_cons.mp hnd).2 h

theorem map_fst_bumpIndeg (ind : List (String × Int)) (p : String) :
    (bumpIndeg ind p).map Prod.fst = ind.map Prod.fst := by
  induction ind with
  | nil => rfl
  | cons e l ih =>
    simp only [bumpIndeg, List.map_cons] at ih ⊢
    by_cases he : e.1 = p <;> simp [he, ih]

theorem map_fst_decIndeg (ind : List (String × Int)) (p : String) :
    (decIndeg ind p).map Prod.fst = ind.map Prod.fst := by
  induction ind with
  | nil => rfl
  | cons e l ih =>
    simp only [decIndeg, List.map_cons] at ih ⊢
    by_cases he : e.1 = p <;> simp [he, ih]

theorem alookup_bumpIndeg (ind : List (String × Int)) (p x : String) :
    alookup (bumpIndeg ind p) x =
      (alookup ind x).map (fun v => if x = p then v + 1 else v) := by
  induction ind with
  | nil => rfl
  | cons e l ih =>
    simp only [bumpIndeg, List.map_cons] at ih ⊢
    by_cases heh : e.1 = p
    · by_cases hea : e.1 = x
      · have hxp : x = p := by rw [← hea, heh]
        simp [alookup, heh, hea, hxp]
      · have hpx : ¬ p = x := fun hc => hea (by rw [heh, hc])
        have hxp : ¬ x = p := fun hc => hpx hc.symm
        simp [alookup, heh, hpx, hxp, ih]
    · by_cases hea : e.1 = x
      · have hxp : ¬ x = p := fun hc => heh (by rw [hea, hc])
        simp [alookup, heh, hea, hxp]
      · simp [alookup, heh, hea, ih]

theorem alookup_decIndeg (ind : List (String × Int)) (p x : String) :
    alookup (decIndeg ind p) x =
      (alookup ind x).map (fun v => if x = p then v - 1 else v) := by
  induction ind with
  | nil => rfl
  | cons e l ih =>
    simp only [decIndeg, List.map_cons] at ih ⊢
    by_cases heh : e.1 = p
    · by_cases hea : e.1 = x
      · have hxp : x = p := by rw [← hea, heh]
        simp [alookup, heh, hea, hxp]
      · have hpx : ¬ p = x := fun hc => hea (by rw [heh, hc])
        have hxp : ¬ x = p := fun hc => hpx hc.symm
        simp [alookup, heh, hpx, hxp, ih]
    · by_cases hea : e.1 = x
      · have hxp : ¬ x = p := fun hc => heh (by rw [hea, hc])
        simp [alookup, heh, hea, hxp]
      · simp [alookup, heh, hea, ih]

theorem alookup_foldl_decIndeg (ps : List String) (hnd : ps.Nodup)
    (ind : List (String × Int)) (x : String) :
    alookup (ps.foldl decIndeg ind) x =
      (alookup ind x).map (fun v => if x ∈ ps then v - 1 else v) := by
  induction ps generalizing ind with
  | nil => cases h : alookup ind x <;> simp [h]
  | cons p ps ih =>
    rw [List.foldl_cons, ih (List.nodup_cons.mp hnd).2, alookup_decIndeg]
    have hpm : p ∉ ps := (List.nodup_cons.mp hnd).1
    cases alookup ind x with
    | none => rfl
    | some v =>
      by_cases hxp : x = p
      · have hxps : x ∉ ps := hxp ▸ hpm
        simp [hxp, hxps, hpm]
      · by_cases hxps : x ∈ ps <;> simp [hxp, hxps]

theorem alookup_foldl_bumpIndeg (ps : List String) (hnd : ps.Nodup)
    (ind : List (String × Int)) (x : String) :
    alookup (ps.foldl bumpIndeg ind) x =
      (alookup ind x).map (fun v => if x ∈ ps then v + 1 else v) := by
  induction ps generalizing ind with
  | nil => cases h : alookup ind x <;> simp [h]
  | cons p ps ih =>
    rw [List.foldl_cons, ih (List.nodup_cons.mp hnd).2, alookup_bumpIndeg]
    have hpm : p ∉ ps := (List.nodup_cons.mp hnd).1
    cases alookup ind x with
    | none => rfl
    | some v =>
      by_cases hxp : x = p
      · have hxps : x ∉ ps := hxp ▸ hpm
        simp [hxp, hxps, hpm]
      · by_cases hxps : x ∈ ps <;> simp [hxp, hxps]

theorem alookup_zero_init (g : CommitGraph) (x : String) (hx : x ∈ keys g) :
    alookup (g.map (fun e => (e.1, (0 : Int)))) x = some 0 := by
  induction g with
  | nil => simp [keys] at hx
  | cons e l ih =>
    by_cases he : e.1 = x
    · simp [alookup, he]
    · rw [List.map_cons, alookup, if_neg he]
      apply ih
      rcases List.mem_cons.mp hx with hx | hx
      · exact absurd hx.symm he
      · exact hx

theorem alookup_initIndeg (g : CommitGraph)
    (hpn : ∀ e ∈ g, e.2.parents.Nodup) (x : String) (hx : x ∈ keys g) :
    alookup (initIndeg g) x = some ((numChildren g x : Int)) := by
  have haux : ∀ (es : List (String × CommitNode)) (ind : List (String × Int)) (v : Int),
      (∀ e ∈ es, e.2.parents.Nodup) → alookup ind x = some v →
      alookup (es.foldl (fun ind e => e.2.parents.foldl bumpIndeg ind) ind) x =
        some (v + numChildren es x) := by
    intro es
    induction es with
    | nil => intro ind v _ h; simpa [numChildren] using h
    | cons e es ih =>
      intro ind v hpn2 h
      rw [List.foldl_cons]
      have h1 : alookup (e.2.parents.foldl bumpIndeg ind) x =
          some (if x ∈ e.2.parents then v + 1 else v) := by
        rw [alookup_foldl_bumpIndeg e.2.parents (hpn2 e (List.mem_cons_self e es)) ind x, h]
        by_cases hm : x ∈ e.2.parents <;> simp [hm]
      have h2 := ih _ _ (fun e2 he2 => hpn2 e2 (List.mem_cons_of_mem e he2)) h1
      rw [h2]
      congr 1
      simp only [numChildren, List.map_cons, List.sum_cons]
      by_cases hm : x ∈ e.2.parents
      · simp only [hm, if_true]
        push_cast
        ring
      · simp [hm]
  have h0 := alookup_zero_init g x hx
  have hres := haux g _ 0 hpn h0
  rw [initIndeg, hres]
  simp

theorem map_fst_initIndeg (g : CommitGraph) :
    (initIndeg g).map Prod.fst = keys g := by
  have haux : ∀ (es : List (String × CommitNode)) (ind : List (String × Int)),
      (es.foldl (fun ind e => e.2.parents.foldl bumpIndeg ind) ind).map Prod.fst =
        ind.map Prod.fst := by
    intro es
    induction es with
    | nil => intro ind; rfl
    | cons e es ih =>
      intro ind
      rw [List.foldl_cons, ih]
      have : ∀ (ps : List String) (ind2 : List (String × Int)),
          (ps.foldl bumpIndeg ind2).map Prod.fst = ind2.map Prod.fst := by
        intro ps
        induction ps with
        | nil => intro ind2; rfl
        | cons p ps ihp =>
          intro ind2
          rw [List.foldl_cons, ihp, map_fst_bumpIndeg]
      exact this e.2.parents ind
  rw [initIndeg, haux]
  simp [keys, List.map_map]

theorem edge_iff_edgeB (g : CommitGraph) (c p : String) :
    Edge g c p ↔ edgeB g c p = true := by
  simp only [Edge, edgeB]
  cases h : lookupNode g c with
  | none => simp
  | some n => simp

theorem edgeB_mem_keys {g : CommitGraph} {c p : String} (h : edgeB g c p = true) :
    c ∈ keys g := by
  rw [edgeB] at h
  cases hl : lookupNode g c with
  | none => rw [hl] at h; exact Bool.noConfusion h
  | some n => exact alookup_some_mem_keys hl

/-- `edgeB g h p` for a key `h` whose node is known. -/
theorem edgeB_of_lookup {g : CommitGraph} {h : String} {n : CommitNode}
    (hl : lookupNode g h = some n) (p : String) :
    edgeB g h p = decide (p ∈ n.parents) := by
  simp only [edgeB]
  rw [hl]

theorem lookupNode_cons_ne (e : String × CommitNode) (l : CommitGraph) (c : String)
    (hne : e.1 ≠ c) : lookupNode (e :: l) c = lookupNode l c := by
  simp only [lookupNode, alookup, if_neg hne]

theorem lookupNode_cons_self (e : String × CommitNode) (l : CommitGraph) :
    lookupNode (e :: l) e.1 = some e.2 := by
  simp [lookupNode, alookup]

theorem edgeB_cons_ne (e : String × CommitNode) (l : CommitGraph) (c p : String)
    (hne : e.1 ≠ c) : edgeB (e :: l) c p = edgeB l c p := by
  simp only [edgeB]
  rw [lookupNode_cons_ne e l c hne]

theorem edgeB_cons_self (e : String × CommitNode) (l : CommitGraph) (p : String) :
    edgeB (e :: l) e.1 p = decide (p ∈ e.2.parents) := by
  simp only [edgeB]
  rw [lookupNode_cons_self]

/-- With an empty emitted list the membership test in `remCount` is
vacuous. -/
theorem remCount_nil (g : CommitGraph) (p : String) :
    remCount g [] p = ((keys g).filter (fun c => edgeB g c p)).length := by
  rw [remCount]
  congr 1
  apply List.filter_congr
  intro c _
  simp

/-- With `res = []` the running indegree is the full child count. -/
theorem remCount_nil_eq_numChildren (g : CommitGraph) (hnd : (keys g).Nodup) (p : String) :
    remCount g [] p = numChildren g p := by
  induction g with
  | nil => rfl
  | cons e l ih =>
    simp only [keys, List.map_cons, List.nodup_cons] at hnd
    obtain ⟨hnm, hnd2⟩ := hnd
    have hih := ih hnd2
    have hcongr : ∀ c ∈ keys l,
        (fun c => edgeB (e :: l) c p) c = (fun c => edgeB l c p) c := by
      intro c hc
      have hne : e.1 ≠ c := fun hc2 => hnm (hc2 ▸ hc)
      exact edgeB_cons_ne e l c p hne
    rw [remCount_nil] at hih ⊢
    rw [show keys (e :: l) = e.1 :: keys l from rfl, List.filter_cons,
      edgeB_cons_self e l p, List.filter_congr hcongr]
    rw [numChildren, List.map_cons, List.sum_cons, ← numChildren, ← hih]
    by_cases hm : p ∈ e.2.parents
    · simp [hm, Nat.add_comm]
    · simp [hm]

/-- Emitting `h` removes exactly `h`'s contribution from the running
indegree of `p`. -/
theorem filter_remove_one (q : String → Bool) (res : List String) (h : String)
    (hh : h ∉ res) :
    ∀ (ks : List String), ks.Nodup →
      (ks.filter (fun c => q c && !(decide (c ∈ res ++ [h])))).length +
        (if h ∈ ks ∧ q h = true then 1 else 0) =
      (ks.filter (fun c => q c && !(decide (c ∈ res)))).length := by
  intro ks
  induction ks with
  | nil => simp
  | cons k ks ih =>
    intro hnd
    obtain ⟨hkm, hnd2⟩ := List.nodup_cons.mp hnd
    have hih := ih hnd2
    by_cases hkh : k = h
    · subst hkh
      have hk1 : (q k && !(decide (k ∈ res ++ [k]))) = false := by
        simp
      have hmem : k ∈ k :: ks := List.mem_cons_self k ks
      have htail : ¬ (k ∈ ks ∧ q k = true) := fun hc => hkm hc.1
      rw [List.filter_cons, List.filter_cons, hk1]
      simp only [Bool.false_eq_true, if_false]
      by_cases hq : q k = true
      · have hk2 : (q k && !(decide (k ∈ res))) = true := by simp [hq, hh]
        rw [hk2]
        simp only [if_true, List.length_cons]
        rw [if_neg htail] at hih
        simp only [hmem, hq, and_true, true_and, if_true]
        omega
      · have hk2 : (q k && !(decide (k ∈ res))) = false := by
          simp only [Bool.and_eq_false_iff]
          left
          exact Bool.not_eq_true _ ▸ hq
        rw [hk2]
        simp only [Bool.false_eq_true, if_false]
        rw [if_neg htail] at hih
        rw [if_neg (fun hc => hq hc.2)]
        omega
    · have hcond : decide (k ∈ res ++ [h]) = decide (k ∈ res) := by
        simp [List.mem_append, hkh]
      have hhead : h ∈ k :: ks ↔ h ∈ ks := by
        constructor
        · intro hc
          rcases List.mem_cons.mp hc with hc | hc
          · exact absurd hc.symm hkh
          · exact hc
        · exact List.mem_cons_of_mem k
      rw [List.filter_cons, List.filter_cons, hcond]
      by_cases hk : (q k && !(decide (k ∈ res))) = true
      · rw [hk]
        simp only [if_true, List.length_cons, hhead]
        omega
      · have hk2 : (q k && !(decide (k ∈ res))) = false := by
          revert hk
          cases (q k && !(decide (k ∈ res))) <;> simp
        rw [hk2]
        simp only [Bool.false_eq_true, if_false, hhead]
        exact hih

/-- The effect on every running indegree of emitting one hash `h`. -/
theorem remCount_append (g : CommitGraph) (hnd : (keys g).Nodup) (res : List String)
    (h p : String) (hh : h ∉ res) :
    remCount g (res ++ [h]) p + (if h ∈ keys g ∧ edgeB g h p = true then 1 else 0) =
      remCount g res p :=
  filter_remove_one (fun c => edgeB g c p) res h hh (keys g) hnd

/-- Zero running indegree means every child is already emitted. -/
theorem remCount_eq_zero_iff (g : CommitGraph) (res : List String) (p : String) :
    remCount g res p = 0 ↔ ∀ c ∈ keys g, edgeB g c p = true → c ∈ res := by
  rw [remCount, List.length_eq_zero, List.filter_eq_nil_iff]
  constructor
  · intro hall c hc hedge
    have := hall c hc
    simp only [hedge, Bool.true_and, Bool.not_eq_true', decide_eq_false_iff_not,
      not_not] at this
    exact this
  · intro hall c hc
    simp only [Bool.and_eq_true, Bool.not_eq_true', decide_eq_false_iff_not, not_and]
    intro hedge
    simp [hall c hc hedge]

/-- Membership in the seed queue, for an indegree list with unique keys. -/
theorem mem_zeroSeeds_iff (ind : List (String × Int)) (hnd : (ind.map Prod.fst).Nodup)
    (x : String) : x ∈ zeroSeeds ind ↔ alookup ind x = some 0 := by
  induction ind with
  | nil => simp [zeroSeeds, alookup]
  | cons e l ih =>
    simp only [List.map_cons, List.nodup_cons] at hnd
    obtain ⟨hm, hnd2⟩ := hnd
    rw [zeroSeeds, List.filter_cons]
    by_cases he : e.1 = x
    · subst he
      by_cases hz : e.2 = 0
      · have hd : decide (e.2 = 0) = true := by simp [hz]
        rw [hd]
        simp only [if_true, List.map_cons]
        constructor
        · intro _
          rw [alookup, if_pos rfl, hz]
        · intro _
          exact List.mem_cons_self _ _
      · have hd : decide (e.2 = 0) = false := by simp [hz]
        rw [hd]
        simp only [Bool.false_eq_true, if_false, alookup, if_pos rfl]
        constructor
        · intro hc
          have : e.1 ∈ l.map Prod.fst := by
            rw [zeroSeeds] at ih
            have hsub : (l.filter (fun e => decide (e.2 = 0))).map Prod.fst ⊆
                l.map Prod.fst := by
              intro y hy
              rcases List.mem_map.mp hy with ⟨z, hz2, hfst⟩
              exact List.mem_map.mpr ⟨z, List.mem_of_mem_filter hz2, hfst⟩
            exact hsub hc
          exact absurd this hm
        · intro hc
          have : (0 : Int) = e.2 := Option.some_inj.mp hc.symm
          exact absurd this.symm hz
    · rw [alookup, if_neg he]
      by_cases hz : e.2 = 0
      · have hd : decide (e.2 = 0) = true := by simp [hz]
        rw [hd]
        simp only [if_true, List.map_cons]
        rw [← ih hnd2]
        constructor
        · intro hc
          rcases List.mem_cons.mp hc with hc | hc
          · exact absurd hc.symm he
          · exact hc
        · exact List.mem_cons_of_mem _
      · have hd : decide (e.2 = 0) = false := by simp [hz]
        rw [hd]
        simp only [Bool.false_eq_true, if_false]
        exact ih hnd2

/-!
### The loop measure
-/

theorem sumPos_decIndeg_le (ind : List (String × Int)) (p : String) :
    sumPos (decIndeg ind p) ≤ sumPos ind := by
  induction ind with
  | nil => simp [sumPos, decIndeg]
  | cons e l ih =>
    simp only [sumPos, decIndeg, List.map_cons, List.sum_cons] at ih ⊢
    by_cases he : e.1 = p
    · simp only [he, if_pos, if_true]
      have : (e.2 - 1).toNat ≤ e.2.toNat := by omega
      omega
    · simp only [he, if_neg, Bool.false_eq_true, if_false]
      omega

theorem sumPos_decIndeg_lt (ind : List (String × Int)) (p : String)
    (h : alookup (decIndeg ind p) p = some 0) :
    sumPos (decIndeg ind p) + 1 ≤ sumPos ind := by
  induction ind with
  | nil => simp [decIndeg, alookup] at h
  | cons e l ih =>
    by_cases he : e.1 = p
    · rw [decIndeg, List.map_cons, if_pos he] at h
      rw [alookup, if_pos (show (e.1, e.2 - 1).1 = p from he)] at h
      have he2 : e.2 = 1 := by
        have : e.2 - 1 = 0 := Option.some_inj.mp h
        omega
      simp only [sumPos, decIndeg, List.map_cons, List.sum_cons, if_pos he, he2]
      have hle := sumPos_decIndeg_le l p
      simp only [sumPos, decIndeg] at hle
      omega
    · rw [decIndeg, List.map_cons, if_neg he] at h
      rw [alookup, if_neg he] at h
      have := ih h
      simp only [sumPos, decIndeg, List.map_cons, List.sum_cons, if_neg he] at this ⊢
      omega

/-!
### One iteration of the Kahn loop
-/

/-- `stepParents` decrements each (distinct) parent once and collects, in
order, exactly the parents whose indegree was `1` before the iteration. -/
theorem stepParents_eq (ind : List (String × Int)) (ps : List String) (hnd : ps.Nodup) :
    stepParents ind ps =
      (ps.foldl decIndeg ind, ps.filter (fun p => decide (alookup ind p = some 1))) := by
  suffices haux : ∀ (ps : List String) (ind : List (String × Int)) (acc : List String),
      ps.Nodup →
      ps.foldl (fun acc p =>
        let ind2 := decIndeg acc.1 p
        if alookup ind2 p = some 0 then (ind2, acc.2 ++ [p]) else (ind2, acc.2)) (ind, acc) =
      (ps.foldl decIndeg ind, acc ++ ps.filter (fun p => decide (alookup ind p = some 1))) by
    rw [stepParents, haux ps ind [] hnd]
    simp
  intro ps
  induction ps with
  | nil => intro ind acc _; simp
  | cons p ps ih =>
    intro ind acc hnd2
    obtain ⟨hpm, hnd3⟩ := List.nodup_cons.mp hnd2
    rw [List.foldl_cons, List.foldl_cons]
    have hdec : alookup (decIndeg ind p) p = (alookup ind p).map (fun v => v - 1) := by
      rw [alookup_decIndeg]
      cases alookup ind p <;> simp
    have hcond : (alookup (decIndeg ind p) p = some 0) ↔ (alookup ind p = some 1) := by
      rw [hdec]
      cases alookup ind p with
      | none => simp
      | some v =>
        simp only [Option.map_some', Option.some_inj]
        omega
    have hfilter : ps.filter (fun x => decide (alookup (decIndeg ind p) x = some 1)) =
        ps.filter (fun x => decide (alookup ind x = some 1)) := by
      apply List.filter_congr
      intro x hx
      have hxp : ¬ x = p := fun hc => hpm (hc ▸ hx)
      rw [alookup_decIndeg]
      cases alookup ind x <;> simp [hxp]
    by_cases hc : alookup ind p = some 1
    · rw [if_pos (hcond.mpr hc), ih _ _ hnd3, hfilter, List.filter_cons]
      simp [hc]
    · rw [if_neg (fun hc2 => hc (hcond.mp hc2)), ih _ _ hnd3, hfilter, List.filter_cons]
      simp [hc]

/-- The loop measure strictly decreases across `stepParents` plus the pop. -/
theorem stepParents_measure (ind : List (String × Int)) (ps : List String) :
    sumPos (stepParents ind ps).1 + (stepParents ind ps).2.length ≤ sumPos ind := by
  suffices haux : ∀ (ps : List String) (ind : List (String × Int)) (acc : List String),
      sumPos (ps.foldl (fun acc p =>
        let ind2 := decIndeg acc.1 p
        if alookup ind2 p = some 0 then (ind2, acc.2 ++ [p]) else (ind2, acc.2)) (ind, acc)).1 +
      (ps.foldl (fun acc p =>
        let ind2 := decIndeg acc.1 p
        if alookup ind2 p = some 0 then (ind2, acc.2 ++ [p]) else (ind2, acc.2)) (ind, acc)).2.length ≤
      sumPos ind + acc.length by
    have := haux ps ind []
    simpa [stepParents] using this
  intro ps
  induction ps with
  | nil => intro ind acc; simp
  | cons p ps ih =>
    intro ind acc
    rw [List.foldl_cons]
    by_cases hc : alookup (decIndeg ind p) p = some 0
    · rw [if_pos hc]
      have h1 := ih (decIndeg ind p) (acc ++ [p])
      have h2 := sumPos_decIndeg_lt ind p hc
      simp only [List.length_append, List.length_cons, List.length_nil] at h1 ⊢
      omega
    · rw [if_neg hc]
      have h1 := ih (decIndeg ind p) acc
      have h2 := sumPos_decIndeg_le ind p
      have hre : ((decIndeg (ind, acc).1 p, (ind, acc).2) :
          List (String × Int) × List String) = (decIndeg ind p, acc) := rfl
      rw [hre]
      omega

theorem KInv_init (g : CommitGraph) (hwf : WellFormedGraph g) :
    KInv g (initIndeg g) (zeroSeeds (initIndeg g)) [] := by
  obtain ⟨hnd, hcl⟩ := hwf
  have hkeys := map_fst_initIndeg g
  have hvals : ∀ p ∈ keys g, alookup (initIndeg g) p = some ((remCount g [] p : Int)) := by
    intro p hp
    rw [alookup_initIndeg g (fun e he => (hcl e he).2) p hp,
      remCount_nil_eq_numChildren g hnd p]
  have hseedsub : zeroSeeds (initIndeg g) ⊆ (initIndeg g).map Prod.fst := by
    intro y hy
    rcases List.mem_map.mp hy with ⟨z, hz, hfst⟩
    exact List.mem_map.mpr ⟨z, List.mem_of_mem_filter hz, hfst⟩
  refine ⟨hkeys, hvals, ?_, by simp, ?_, ?_, ?_⟩
  · simp only [List.nil_append]
    show (((initIndeg g).filter (fun e => decide (e.2 = 0))).map Prod.fst).Nodup
    have hsk : ((initIndeg g).map Prod.fst).Nodup := hkeys.symm ▸ hnd
    exact ((List.filter_sublist _).map Prod.fst).nodup hsk
  · intro x hx
    rw [← hkeys]
    exact hseedsub hx
  · intro x hx
    simp only [List.not_mem_nil, false_or]
    rw [mem_zeroSeeds_iff (initIndeg g) (hkeys ▸ hnd) x]
    rw [hvals x hx]
    constructor
    · intro hc
      have := Option.some_inj.mp hc
      omega
    · intro hc
      rw [hc]
      rfl
  · intro c p _ hp
    simp at hp

/-- One iteration: popping `h`, emitting it, decrementing its parents and
enqueueing those that become ready preserves the invariant. -/
theorem KInv_step (g : CommitGraph) (hwf : WellFormedGraph g)
    (ind : List (String × Int)) (q res : List String) (h : String)
    (hKI : KInv g ind (h :: q) res) :
    KInv g (stepParents ind ((lookupNode g h).getD (CommitNode.mk h [] [])).parents).1
      (q ++ (stepParents ind ((lookupNode g h).getD (CommitNode.mk h [] [])).parents).2)
      (res ++ [h]) := by
  obtain ⟨hkeys, hvals, hnodup, hressub, hqsub, hiff, hord⟩ := hKI
  obtain ⟨hknd, hcl⟩ := hwf
  have hhk : h ∈ keys g := hqsub h (List.mem_cons_self h q)
  obtain ⟨nh, hnh⟩ := Option.isSome_iff_exists.mp
    (alookup_isSome_of_mem_keys (show h ∈ g.map Prod.fst from hhk))
  have hgetD : ((lookupNode g h).getD (CommitNode.mk h [] [])) = nh := by
    rw [show lookupNode g h = some nh from hnh]
    rfl
  rw [hgetD]
  have hmem_gh : (h, nh) ∈ g := alookup_some_mem hnh
  have hpnd : nh.parents.Nodup := (hcl (h, nh) hmem_gh).2
  have hpsub : nh.parents ⊆ keys g := (hcl (h, nh) hmem_gh).1
  rw [stepParents_eq ind nh.parents hpnd]
  obtain ⟨hresnd, hconsnd, hdisj⟩ := List.nodup_append.mp hnodup
  have hhres : h ∉ res := fun hc => hdisj hc (List.mem_cons_self h q)
  have hhq : h ∉ q := (List.nodup_cons.mp hconsnd).1
  have hqnd : q.Nodup := (List.nodup_cons.mp hconsnd).2
  have hremh : remCount g res h = 0 := (hiff h hhk).mp (Or.inr (List.mem_cons_self h q))
  have hedgeh : ∀ p, edgeB g h p = decide (p ∈ nh.parents) := fun p => edgeB_of_lookup hnh p
  have hremeq : ∀ p, remCount g (res ++ [h]) p + (if p ∈ nh.parents then 1 else 0) =
      remCount g res p := by
    intro p
    have heq := remCount_append g hknd res h p hhres
    rw [hedgeh p] at heq
    by_cases hp : p ∈ nh.parents
    · rw [if_pos hp]
      rw [if_pos ⟨hhk, by simp [hp]⟩] at heq
      exact heq
    · rw [if_neg hp]
      rw [if_neg (fun hc => hp (by simpa using hc.2))] at heq
      simpa using heq
  have hreadymem : ∀ x, x ∈ nh.parents.filter (fun p => decide (alookup ind p = some 1)) ↔
      (x ∈ nh.parents ∧ alookup ind x = some 1) := by
    intro x
    rw [List.mem_filter]
    simp
  have hreadyrem : ∀ x ∈ nh.parents.filter (fun p => decide (alookup ind p = some 1)),
      remCount g res x = 1 := by
    intro x hx
    obtain ⟨hxps, hxl⟩ := (hreadymem x).mp hx
    have hxk : x ∈ keys g := hpsub hxps
    rw [hvals x hxk] at hxl
    have := Option.some_inj.mp hxl
    omega
  have hreadyfresh : ∀ x ∈ nh.parents.filter (fun p => decide (alookup ind p = some 1)),
      x ∉ res ∧ x ≠ h ∧ x ∉ q := by
    intro x hx
    have h1 := hreadyrem x hx
    have hxk : x ∈ keys g := hpsub ((hreadymem x).mp hx).1
    have h2 := hiff x hxk
    refine ⟨?_, ?_, ?_⟩
    · intro hc
      have := h2.mp (Or.inl hc)
      omega
    · intro hc
      subst hc
      omega
    · intro hc
      have := h2.mp (Or.inr (List.mem_cons_of_mem h hc))
      omega
  refine ⟨?_, ?_, ?_, ?_, ?_, ?_, ?_⟩
  · have hfst : ∀ (ps2 : List String) (ind2 : List (String × Int)),
        (ps2.foldl decIndeg ind2).map Prod.fst = ind2.map Prod.fst := by
      intro ps2
      induction ps2 with
      | nil => intro ind2; rfl
      | cons a as iha =>
        intro ind2
        rw [List.foldl_cons, iha, map_fst_decIndeg]
    rw [show ((nh.parents.foldl decIndeg ind,
        nh.parents.filter (fun p => decide (alookup ind p = some 1))) :
        List (String × Int) × List String).1 = nh.parents.foldl decIndeg ind from rfl]
    rw [hfst, hkeys]
  · intro p hp
    rw [show ((nh.parents.foldl decIndeg ind,
        nh.parents.filter (fun p => decide (alookup ind p = some 1))) :
        List (String × Int) × List String).1 = nh.parents.foldl decIndeg ind from rfl]
    rw [alookup_foldl_decIndeg nh.parents hpnd ind p, hvals p hp, Option.map_some']
    have heq := hremeq p
    by_cases hpps : p ∈ nh.parents
    · rw [if_pos hpps]
      rw [if_pos hpps] at heq
      congr 1
      omega
    · rw [if_neg hpps]
      rw [if_neg hpps] at heq
      congr 1
      omega
  · rw [show ((nh.parents.foldl decIndeg ind,
        nh.parents.filter (fun p => decide (alookup ind p = some 1))) :
        List (String × Int) × List String).2 =
        nh.parents.filter (fun p => decide (alookup ind p = some 1)) from rfl]
    have hreadynd : (nh.parents.filter (fun p => decide (alookup ind p = some 1))).Nodup :=
      hpnd.filter _
    have htarget : (res ++ h ::
        (q ++ nh.parents.filter (fun p => decide (alookup ind p = some 1)))).Nodup := by
      apply List.nodup_append.mpr
      refine ⟨hresnd, ?_, ?_⟩
      · apply List.nodup_cons.mpr
        constructor
        · intro hc
          rcases List.mem_append.mp hc with hc | hc
          · exact hhq hc
          · exact (hreadyfresh h hc).2.1 rfl
        · apply List.nodup_append.mpr
          refine ⟨hqnd, hreadynd, ?_⟩
          intro a ha hc
          exact (hreadyfresh a hc).2.2 ha
      · intro a ha hc
        rcases List.mem_cons.mp hc with hc | hc
        · exact hhres (hc ▸ ha)
        · rcases List.mem_append.mp hc with hc | hc
          · exact hdisj ha (List.mem_cons_of_mem h hc)
          · exact (hreadyfresh a hc).1 ha
    simpa [List.append_assoc] using htarget
  · intro x hx
    rcases List.mem_append.mp hx with hx | hx
    · exact hressub x hx
    · rw [List.mem_singleton.mp hx]
      exact hhk
  · intro x hx
    rw [show ((nh.parents.foldl decIndeg ind,
        nh.parents.filter (fun p => decide (alookup ind p = some 1))) :
        List (String × Int) × List String).2 =
        nh.parents.filter (fun p => decide (alookup ind p = some 1)) from rfl] at hx
    rcases List.mem_append.mp hx with hx | hx
    · exact hqsub x (List.mem_cons_of_mem h hx)
    · exact hpsub ((hreadymem x).mp hx).1
  · intro x hx
    rw [show ((nh.parents.foldl decIndeg ind,
        nh.parents.filter (fun p => decide (alookup ind p = some 1))) :
        List (String × Int) × List String).2 =
        nh.parents.filter (fun p => decide (alookup ind p = some 1)) from rfl]
    have heq := hremeq x
    constructor
    · intro hmem
      rcases hmem with hmem | hmem
      · rcases List.mem_append.mp hmem with hm | hm
        · have h0 := (hiff x hx).mp (Or.inl hm)
          omega
        · have hxh : x = h := List.mem_singleton.mp hm
          subst hxh
          omega
      · rcases List.mem_append.mp hmem with hm | hm
        · have h0 := (hiff x hx).mp (Or.inr (List.mem_cons_of_mem h hm))
          omega
        · have h1 := hreadyrem x hm
          have hxps := ((hreadymem x).mp hm).1
          rw [if_pos hxps] at heq
          omega
    · intro h0
      by_cases hrem : remCount g res x = 0
      · rcases (hiff x hx).mpr hrem with hm | hm
        · exact Or.inl (List.mem_append_left _ hm)
        · rcases List.mem_cons.mp hm with hm | hm
          · exact Or.inl (List.mem_append_right _ (List.mem_singleton.mpr hm))
          · exact Or.inr (List.mem_append_left _ hm)
      · have hxps : x ∈ nh.parents := by
          by_contra hc
          rw [if_neg hc] at heq
          omega
        rw [if_pos hxps] at heq
        have hrem1 : remCount g res x = 1 := by omega
        have hl1 : alookup ind x = some 1 := by
          rw [hvals x hx, hrem1]
          rfl
        exact Or.inr (List.mem_append_right _ ((hreadymem x).mpr ⟨hxps, hl1⟩))
  · intro c p hedge hp
    rcases List.mem_append.mp hp with hp | hp
    · obtain ⟨hc, hidx⟩ := hord c p hedge hp
      refine ⟨List.mem_append_left _ hc, ?_⟩
      rw [List.indexOf_append_of_mem hc, List.indexOf_append_of_mem hp]
      exact hidx
    · have hph : p = h := List.mem_singleton.mp hp
      subst hph
      have hck : c ∈ keys g := edgeB_mem_keys hedge
      have hcres : c ∈ res := (remCount_eq_zero_iff g res p).mp hremh c hck hedge
      refine ⟨List.mem_append_left _ hcres, ?_⟩
      rw [List.indexOf_append_of_mem hcres, List.indexOf_append_of_not_mem hhres,
        List.indexOf_cons_self]
      have h1 : res.indexOf c < res.length := List.indexOf_lt_length.mpr hcres
      omega

/-- Exit facts of the Kahn loop, by induction on the fuel: with enough fuel
and the invariant, the returned list is a duplicate-free list of keys,
children precede parents in it, and a key is in it exactly when all its
children are. -/
theorem kahnLoop_post (g : CommitGraph) (hwf : WellFormedGraph g) :
    ∀ (fuel : Nat) (ind : List (String × Int)) (q res : List String),
      sumPos ind + q.length < fuel → KInv g ind q res →
      (∀ x ∈ kahnLoop g fuel ind q res, x ∈ keys g) ∧
      (kahnLoop g fuel ind q res).Nodup ∧
      (∀ c p, edgeB g c p = true → p ∈ kahnLoop g fuel ind q res →
        c ∈ kahnLoop g fuel ind q res ∧
        (kahnLoop g fuel ind q res).indexOf c < (kahnLoop g fuel ind q res).indexOf p) ∧
      (∀ x ∈ keys g, x ∈ kahnLoop g fuel ind q res ↔
        remCount g (kahnLoop g fuel ind q res) x = 0) := by
  intro fuel
  induction fuel with
  | zero =>
    intro ind q res hlt
    exact absurd hlt (Nat.not_lt_zero _)
  | succ n ih =>
    intro ind q res hlt hKI
    cases q with
    | nil =>
      rw [kahnLoop]
      obtain ⟨_, _, hnodup, hressub, _, hiff, hord⟩ := hKI
      refine ⟨hressub, by simpa using hnodup, hord, ?_⟩
      intro x hx
      rw [← hiff x hx]
      simp
    | cons h q2 =>
      rw [kahnLoop]
      have hstep := KInv_step g hwf ind q2 res h hKI
      have hmeas := stepParents_measure ind
        ((lookupNode g h).getD (CommitNode.mk h [] [])).parents
      apply ih
      · simp only [List.length_append, List.length_cons] at hlt ⊢
        omega
      · exact hstep

/-- On an acyclic graph, a list closed under "all children emitted implies
emitted" covers every key: by well-founded induction along the transitive
closure of the edge relation, which is well-founded on the finite key set
because the graph is acyclic. -/
theorem kahn_covers (g : CommitGraph) (hac : Acyclic g) (r : List String)
    (hiff : ∀ x ∈ keys g, x ∈ r ↔ remCount g r x = 0) : ∀ x ∈ keys g, x ∈ r := by
  haveI hfin : Finite {x // x ∈ keys g} := (List.finite_toSet (keys g)).to_subtype
  let rel : {x // x ∈ keys g} → {x // x ∈ keys g} → Prop :=
    fun a b => Relation.TransGen (Edge g) a.val b.val
  haveI htrans : IsTrans {x // x ∈ keys g} rel :=
    ⟨fun _ _ _ hab hbc => Relation.TransGen.trans hab hbc⟩
  haveI hirrefl : IsIrrefl {x // x ∈ keys g} rel := ⟨fun a ha => hac a.val ha⟩
  have hwfd : WellFounded rel := Finite.wellFounded_of_trans_of_irrefl rel
  intro x hx
  have hall : ∀ a : {x // x ∈ keys g}, a.val ∈ r := by
    intro a
    refine @WellFounded.induction _ rel hwfd (fun b => b.val ∈ r) a ?_
    intro b ihb
    refine (hiff b.val b.property).mpr ?_
    refine (remCount_eq_zero_iff g r b.val).mpr ?_
    intro c hc hedge
    exact ihb ⟨c, hc⟩ (Relation.TransGen.single ((edge_iff_edgeB g c b.val).mpr hedge))
  exact hall ⟨x, hx⟩

/-- The combined content of a successful sort on a well-formed acyclic
graph: the returned order is a permutation of the keys, nothing is printed,
and every child strictly precedes each of its parents. -/
theorem topo_sort_spec_aux (g : CommitGraph) (hwf : WellFormedGraph g) (hac : Acyclic g) :
    (topo_sort g).Perm (keys g) ∧ topoSortOut g = [] ∧
    (∀ c p, edgeB g c p = true →
      (topo_sort g).indexOf c < (topo_sort g).indexOf p) := by
  have hpost := kahnLoop_post g hwf
    (sumPos (initIndeg g) + (zeroSeeds (initIndeg g)).length + 1)
    (initIndeg g) (zeroSeeds (initIndeg g)) []
    (by omega) (KInv_init g hwf)
  obtain ⟨hsub, hnd, hord, hiff⟩ := hpost
  have hcov := kahn_covers g hac _ hiff
  have hperm : (kahnLoop g (sumPos (initIndeg g) + (zeroSeeds (initIndeg g)).length + 1)
      (initIndeg g) (zeroSeeds (initIndeg g)) []).Perm (keys g) :=
    (List.perm_ext_iff_of_nodup hnd hwf.1).mpr
      (fun a => ⟨fun h => hsub a h, fun h => hcov a h⟩)
  have hlen : (kahnLoop g (sumPos (initIndeg g) + (zeroSeeds (initIndeg g)).length + 1)
      (initIndeg g) (zeroSeeds (initIndeg g)) []).length = g.length := by
    rw [hperm.length_eq]
    simp [keys]
  have hrun : topoSortRun g = ([], kahnLoop g
      (sumPos (initIndeg g) + (zeroSeeds (initIndeg g)).length + 1)
      (initIndeg g) (zeroSeeds (initIndeg g)) []) := by
    rw [topoSortRun]
    simp only [hlen, ne_eq, not_true_eq_false, if_false]
  have hts : topo_sort g = kahnLoop g
      (sumPos (initIndeg g) + (zeroSeeds (initIndeg g)).length + 1)
      (initIndeg g) (zeroSeeds (initIndeg g)) [] := by
    rw [topo_sort, hrun]
  have hout : topoSortOut g = [] := by
    rw [topoSortOut, hrun]
  refine ⟨hts ▸ hperm, hout, ?_⟩
  intro c p hedge
  have hpk : p ∈ keys g := by
    rw [edgeB] at hedge
    cases hl : lookupNode g c with
    | none => rw [hl] at hedge; exact absurd hedge (by simp)
    | some n =>
      rw [hl] at hedge
      have hpn : p ∈ n.parents := by simpa using hedge
      exact ((hwf.2 (c, n) (alookup_some_mem hl)).1) hpn
  have hpr : p ∈ kahnLoop g (sumPos (initIndeg g) + (zeroSeeds (initIndeg g)).length + 1)
      (initIndeg g) (zeroSeeds (initIndeg g)) [] := hcov p hpk
  rw [hts]
  exact (hord c p hedge hpr).2

/-- A strictly increasing rank along all recorded parent edges rules out
cycles. -/
theorem acyclic_of_ranking (g : CommitGraph) (f : String → Nat)
    (hf : ∀ e ∈ g, ∀ p ∈ e.2.parents, f e.1 < f p) : Acyclic g := by
  have hEdge : ∀ c p, Edge g c p → f c < f p := by
    rintro c p ⟨n, hn, hp⟩
    have hmem : (c, n) ∈ g := alookup_some_mem hn
    exact hf (c, n) hmem p hp
  intro h hcyc
  have hmono : ∀ {a b : String}, Relation.TransGen (Edge g) a b → f a < f b := by
    intro a b hab
    induction hab with
    | single hstep => exact hEdge _ _ hstep
    | tail _ hstep ih => exact lt_trans ih (hEdge _ _ hstep)
  exact lt_irrefl _ (hmono hcyc)

/-- C1: on every well-formed acyclic commit graph, `topo_sort` returns a
sequence in which each key of the graph appears exactly once and nothing
else appears (a permutation of the key set), and every commit strictly
precedes each of its recorded parents (children before parents). -/
theorem topo_sort_correct (g : CommitGraph) (hwf : WellFormedGraph g) (hac : Acyclic g) :
    (topo_sort g).Perm (keys g) ∧
    ∀ e ∈ g, ∀ p ∈ e.2.parents,
      (topo_sort g).indexOf e.1 < (topo_sort g).indexOf p := by
  obtain ⟨hperm, _, hord⟩ := topo_sort_spec_aux g hwf hac
  refine ⟨hperm, fun e he p hp => ?_⟩
  have hlook : lookupNode g e.1 = some e.2 :=
    alookup_eq_some_of_nodup hwf.1 (by rw [Prod.mk.eta]; exact he)
  exact hord e.1 p (by rw [edgeB_of_lookup hlook]; simp [hp])

/-- C1, witness: the spec's three-commit chain `c3 → c2 → c1`, with the
hypotheses discharged concretely (acyclicity via an explicit rank). -/
theorem topo_sort_correct_witness :
    WellFormedGraph [("c3", CommitNode.mk "c3" ["c2"] []),
      ("c2", CommitNode.mk "c2" ["c1"] ["c3"]), ("c1", CommitNode.mk "c1" [] ["c2"])] ∧
    Acyclic [("c3", CommitNode.mk "c3" ["c2"] []),
      ("c2", CommitNode.mk "c2" ["c1"] ["c3"]), ("c1", CommitNode.mk "c1" [] ["c2"])] ∧
    ((topo_sort [("c3", CommitNode.mk "c3" ["c2"] []),
        ("c2", CommitNode.mk "c2" ["c1"] ["c3"]),
        ("c1", CommitNode.mk "c1" [] ["c2"])]).Perm
      (keys [("c3", CommitNode.mk "c3" ["c2"] []),
        ("c2", CommitNode.mk "c2" ["c1"] ["c3"]), ("c1", CommitNode.mk "c1" [] ["c2"])]) ∧
     ∀ e ∈ [("c3", CommitNode.mk "c3" ["c2"] []),
        ("c2", CommitNode.mk "c2" ["c1"] ["c3"]), ("c1", CommitNode.mk "c1" [] ["c2"])],
       ∀ p ∈ e.2.parents,
        (topo_sort [("c3", CommitNode.mk "c3" ["c2"] []),
          ("c2", CommitNode.mk "c2" ["c1"] ["c3"]),
          ("c1", CommitNode.mk "c1" [] ["c2"])]).indexOf e.1 <
        (topo_sort [("c3", CommitNode.mk "c3" ["c2"] []),
          ("c2", CommitNode.mk "c2" ["c1"] ["c3"]),
          ("c1", CommitNode.mk "c1" [] ["c2"])]).indexOf p) := by
  have hac : Acyclic [("c3", CommitNode.mk "c3" ["c2"] []),
      ("c2", CommitNode.mk "c2" ["c1"] ["c3"]), ("c1", CommitNode.mk "c1" [] ["c2"])] :=
    acyclic_of_ranking _
      (fun h => if h = "c3" then 0 else if h = "c2" then 1 else 2) (by decide)
  exact ⟨⟨by decide, by decide⟩, hac, topo_sort_correct _ ⟨by decide, by decide⟩ hac⟩

/-- C6: `topo_sort` either returns an ordering covering all graph nodes, or
prints the `"Cycle"` marker and returns the empty ordering; it never
returns a non-empty ordering shorter than the node count, and on a
well-formed acyclic graph the full-length branch is the one taken. -/
theorem topo_sort_no_truncation (g : CommitGraph) :
    ((topoSortOut g = [] ∧ (topo_sort g).length = g.length) ∨
      (topoSortOut g = ["Cycle"] ∧ topo_sort g = [])) ∧
    (WellFormedGraph g → Acyclic g →
      topoSortOut g = [] ∧ (topo_sort g).length = g.length) := by
  constructor
  · rw [topoSortOut, topo_sort, topoSortRun]
    by_cases hlen : (kahnLoop g
        (sumPos (initIndeg g) + (zeroSeeds (initIndeg g)).length + 1)
        (initIndeg g) (zeroSeeds (initIndeg g)) []).length = g.length
    · left
      simp [hlen]
    · right
      simp [hlen]
  · intro hwf hac
    obtain ⟨hperm, hout, _⟩ := topo_sort_spec_aux g hwf hac
    refine ⟨hout, ?_⟩
    rw [hperm.length_eq]
    simp [keys]

/-- C6, witness: a two-node cycle takes the `"Cycle"` branch, and the
three-commit chain takes the full-length branch. -/
theorem topo_sort_no_truncation_witness :
    (topoSortOut [("aa", CommitNode.mk "aa" ["bb"] ["bb"]),
        ("bb", CommitNode.mk "bb" ["aa"] ["aa"])] = ["Cycle"] ∧
      topo_sort [("aa", CommitNode.mk "aa" ["bb"] ["bb"]),
        ("bb", CommitNode.mk "bb" ["aa"] ["aa"])] = []) ∧
    (topoSortOut [("c3", CommitNode.mk "c3" ["c2"] []),
        ("c2", CommitNode.mk "c2" ["c1"] ["c3"]), ("c1", CommitNode.mk "c1" [] ["c2"])] = [] ∧
      (topo_sort [("c3", CommitNode.mk "c3" ["c2"] []),
        ("c2", CommitNode.mk "c2" ["c1"] ["c3"]),
        ("c1", CommitNode.mk "c1" [] ["c2"])]).length = 3) := by
  constructor
  · rcases (topo_sort_no_truncation [("aa", CommitNode.mk "aa" ["bb"] ["bb"]),
        ("bb", CommitNode.mk "bb" ["aa"] ["aa"])]).1 with ⟨_, h2⟩ | hres
    · exact absurd h2 (by decide)
    · exact hres
  · have hac : Acyclic [("c3", CommitNode.mk "c3" ["c2"] []),
        ("c2", CommitNode.mk "c2" ["c1"] ["c3"]), ("c1", CommitNode.mk "c1" [] ["c2"])] :=
      acyclic_of_ranking _
        (fun h => if h = "c3" then 0 else if h = "c2" then 1 else 2) (by decide)
    have h := (topo_sort_no_truncation [("c3", CommitNode.mk "c3" ["c2"] []),
        ("c2", CommitNode.mk "c2" ["c1"] ["c3"]),
        ("c1", CommitNode.mk "c1" [] ["c2"])]).2 ⟨by decide, by decide⟩ hac
    exact ⟨h.1, h.2⟩

end TopoOrder
